import Mathlib

/-! # devicedb: the sibling-set merge iterator, the in-memory replica iterator, the default bucket

A shallow embedding of

* `clusterio/sibling_set_merge_iterator.go` (`SiblingSetMergeIterator`),
* the `MemorySiblingSetIterator` of `clusterio/utils_test.go`, and
* the policy methods of `bucket/builtin/default.go` (`DefaultBucket`).

Conventions of the embedding:

* a Go `string` is its sequence of bytes (`GoString`); `[]byte(s)` is then the same byte
  sequence, and the Go comparison `s < t` is the lexicographic order on byte lists;
* a nilable Go value (`[]byte`, `*SiblingSet`, `error`, a pointer to an entry) is an `Option`;
* a Go `int` is an `Int`; the cursor indexes never exceed a slice length, so no wrap-around
  is modelled;
* a run-time panic (slice index out of range, nil dereference) is the `Except.error` result;
* a Go `map[string]V` is an association list read with `List.lookup`, a store `m[k] = v`
  pushes the binding in front.
-/

namespace Devicedb

/-- A Go `string`: an immutable sequence of bytes. -/
abbrev GoString := List (Fin 256)

/-- The run-time panics the modelled code can raise. -/
inductive Panic where
  | indexOutOfRange
  | nilDereference
  deriving DecidableEq, Repr

/-- A Go `map[string]V`. -/
abbrev GoMap (V : Type) := List (GoString × V)

namespace GoMap

/-- The comma-ok read `v, ok := m[k]`: `none` when the key is absent. -/
def get? {V : Type} (m : GoMap V) (k : GoString) : Option V := List.lookup k m

/-- The store `m[k] = v`. -/
def set {V : Type} (m : GoMap V) (k : GoString) (v : V) : GoMap V := (k, v) :: m

end GoMap

/-- Go slice indexing `xs[i]` with a signed index: panics outside `0 ≤ i < len(xs)`. -/
def index {α : Type} (xs : List α) (i : Int) : Except Panic α :=
  if 0 ≤ i then
    match xs[i.toNat]? with
    | some x => .ok x
    | none => .error .indexOutOfRange
  else .error .indexOutOfRange

/-- The library call `sort.Strings`: sorts a slice of strings into ascending order.  The order
on strings is total and equal strings are indistinguishable, so every sorting algorithm computes
this list. -/
def sortStrings (xs : List GoString) : List GoString := xs.insertionSort (· ≤ ·)

/-! ## `SiblingSetMergeIterator` -/

/-- The struct `SiblingSetMergeIterator`; `readMerger` is the `Get` method of the
`NodeReadMerger` the iterator was built with. -/
structure SiblingSetMergeIterator (SiblingSet : Type) where
  readMerger : GoString → Option SiblingSet
  keys : List (List GoString)
  prefixes : List GoString
  keySet : GoMap Bool
  prefixIndexes : GoMap Int
  currentPrefixIndex : Int
  currentKeyIndex : Int

/-- The constructor `NewSiblingSetMergeIterator`. -/
def NewSiblingSetMergeIterator {SiblingSet : Type} (readMerger : GoString → Option SiblingSet) :
    SiblingSetMergeIterator SiblingSet :=
  { readMerger := readMerger
    keys := []
    prefixes := []
    keySet := []
    prefixIndexes := []
    currentKeyIndex := -1
    currentPrefixIndex := -1 }

namespace SiblingSetMergeIterator

variable {SiblingSet : Type}

/-- The method `AddKey`. -/
def AddKey (iter : SiblingSetMergeIterator SiblingSet) (pfx key : GoString) :
    Except Panic (SiblingSetMergeIterator SiblingSet) :=
  if (iter.keySet.get? key).isSome then
    .ok iter
  else
    let iter1 := { iter with keySet := iter.keySet.set key true }
    let iter2 :=
      if (iter1.prefixIndexes.get? pfx).isSome then iter1
      else
        { iter1 with
          prefixIndexes := iter1.prefixIndexes.set pfx (iter1.keys.length : Int)
          keys := iter1.keys ++ [[]]
          prefixes := iter1.prefixes ++ [pfx] }
    let prefixIndex : Int := (iter2.prefixIndexes.get? pfx).getD 0
    match index iter2.keys prefixIndex with
    | .error e => .error e
    | .ok group => .ok { iter2 with keys := iter2.keys.set prefixIndex.toNat (group ++ [key]) }

/-- The method `SortKeys`: every key list is sorted in place. -/
def SortKeys (iter : SiblingSetMergeIterator SiblingSet) : SiblingSetMergeIterator SiblingSet :=
  { iter with keys := iter.keys.map sortStrings }

/-- The method `Next`: the returned pair is the boolean result and the updated iterator. -/
def Next (iter : SiblingSetMergeIterator SiblingSet) :
    Except Panic (Bool × SiblingSetMergeIterator SiblingSet) :=
  let iter1 := if iter.currentPrefixIndex < 0 then { iter with currentPrefixIndex := 0 } else iter
  if ¬ (iter1.currentPrefixIndex < (iter1.keys.length : Int)) then
    .ok (false, iter1)
  else
    let iter2 := { iter1 with currentKeyIndex := iter1.currentKeyIndex + 1 }
    match index iter2.keys iter2.currentPrefixIndex with
    | .error e => .error e
    | .ok group =>
      let iter3 :=
        if iter2.currentKeyIndex ≥ (group.length : Int) then
          { iter2 with currentPrefixIndex := iter2.currentPrefixIndex + 1, currentKeyIndex := 0 }
        else iter2
      if iter3.currentPrefixIndex < (iter3.keys.length : Int) then
        match index iter3.keys iter3.currentPrefixIndex with
        | .error e => .error e
        | .ok group3 => .ok (decide (iter3.currentKeyIndex < (group3.length : Int)), iter3)
      else
        .ok (false, iter3)

/-- The guard shared by `Prefix`, `Key` and `Value`. -/
def noCurrentGroup (iter : SiblingSetMergeIterator SiblingSet) : Prop :=
  iter.currentPrefixIndex < 0 ∨ iter.currentPrefixIndex ≥ (iter.keys.length : Int) ∨
    iter.keys.length = 0

instance (iter : SiblingSetMergeIterator SiblingSet) : Decidable iter.noCurrentGroup := by
  unfold noCurrentGroup; exact inferInstance

/-- The method `Prefix`: `none` is the nil slice. -/
def Prefix (iter : SiblingSetMergeIterator SiblingSet) : Except Panic (Option GoString) :=
  if iter.noCurrentGroup then .ok none
  else
    match index iter.prefixes iter.currentPrefixIndex with
    | .error e => .error e
    | .ok p => .ok (some p)

/-- The method `Key`: `none` is the nil slice. -/
def Key (iter : SiblingSetMergeIterator SiblingSet) : Except Panic (Option GoString) :=
  if iter.noCurrentGroup then .ok none
  else
    match index iter.keys iter.currentPrefixIndex with
    | .error e => .error e
    | .ok group =>
      if iter.currentKeyIndex ≥ (group.length : Int) then .ok none
      else
        match index group iter.currentKeyIndex with
        | .error e => .error e
        | .ok k => .ok (some k)

/-- The method `Value`: `none` is the nil pointer. -/
def Value (iter : SiblingSetMergeIterator SiblingSet) : Except Panic (Option SiblingSet) :=
  if iter.noCurrentGroup then .ok none
  else
    match index iter.keys iter.currentPrefixIndex with
    | .error e => .error e
    | .ok group =>
      if iter.currentKeyIndex ≥ (group.length : Int) then .ok none
      else
        match index group iter.currentKeyIndex with
        | .error e => .error e
        | .ok k => .ok (iter.readMerger k)

/-- The method `LocalVersion`. -/
def LocalVersion (_iter : SiblingSetMergeIterator SiblingSet) : Nat := 0

/-- The method `Release`: the body is empty. -/
def Release (iter : SiblingSetMergeIterator SiblingSet) : SiblingSetMergeIterator SiblingSet :=
  iter

/-- The method `Error`: `none` is the nil error. -/
def Error (_iter : SiblingSetMergeIterator SiblingSet) : Option String := none

/-- One call made by a user of the iterator. -/
inductive Op where
  | addKey (pfx key : GoString)
  | sortKeys
  | next
  | release
  deriving DecidableEq, Repr

/-- The effect of one call on the iterator (the boolean result of `Next` is dropped). -/
def step (iter : SiblingSetMergeIterator SiblingSet) :
    Op → Except Panic (SiblingSetMergeIterator SiblingSet)
  | .addKey pfx key => iter.AddKey pfx key
  | .sortKeys => .ok iter.SortKeys
  | .next =>
    match iter.Next with
    | .error e => .error e
    | .ok r => .ok r.2
  | .release => .ok iter.Release

/-- The calls of a list made one after the other. -/
def run : List Op → SiblingSetMergeIterator SiblingSet →
    Except Panic (SiblingSetMergeIterator SiblingSet)
  | [], iter => .ok iter
  | op :: ops, iter =>
    match step iter op with
    | .error e => .error e
    | .ok iter1 => run ops iter1

/-- The calls `AddKey(p, k)` for the pairs `(p, k)` of a list, in order. -/
def addKeys (calls : List (GoString × GoString)) (iter : SiblingSetMergeIterator SiblingSet) :
    Except Panic (SiblingSetMergeIterator SiblingSet) :=
  run (calls.map fun c => Op.addKey c.1 c.2) iter

/-- A state is reachable when some sequence of calls on a fresh iterator ends in it. -/
def Reachable (iter : SiblingSetMergeIterator SiblingSet) : Prop :=
  ∃ rm ops, run ops (NewSiblingSetMergeIterator rm) = .ok iter

/-- The consumer loop `for iter.Next() { read iter.Prefix(), iter.Key() }`, cut after `fuel`
calls of `Next`: the pairs read, or `none` when the loop has not ended within `fuel` calls. -/
def drain : Nat → SiblingSetMergeIterator SiblingSet →
    Except Panic (Option (List (Option GoString × Option GoString)))
  | 0, _ => .ok none
  | fuel + 1, iter =>
    match iter.Next with
    | .error e => .error e
    | .ok (false, _) => .ok (some [])
    | .ok (true, iter1) =>
      match iter1.Prefix, iter1.Key with
      | .ok p, .ok k =>
        match drain fuel iter1 with
        | .error e => .error e
        | .ok none => .ok none
        | .ok (some rest) => .ok (some ((p, k) :: rest))
      | .error e, _ => .error e
      | _, .error e => .error e

/-- The boolean results of `n` successive calls of `Next`. -/
def nextResults : Nat → SiblingSetMergeIterator SiblingSet → Except Panic (List Bool)
  | 0, _ => .ok []
  | n + 1, iter =>
    match iter.Next with
    | .error e => .error e
    | .ok (b, iter1) =>
      match nextResults n iter1 with
      | .error e => .error e
      | .ok bs => .ok (b :: bs)

end SiblingSetMergeIterator

/-! ## `MemorySiblingSetIterator` (the replica iterator of the test utilities) -/

/-- The struct `siblingSetIteratorEntry`. -/
structure siblingSetIteratorEntry (SiblingSet Err : Type) where
  Prefix : Option GoString
  Key : Option GoString
  Value : Option SiblingSet
  Error : Option Err

/-- The struct `MemorySiblingSetIterator`; the entries are the (non-nil) pointers made by
`AppendNext`. -/
structure MemorySiblingSetIterator (SiblingSet Err : Type) where
  entries : List (siblingSetIteratorEntry SiblingSet Err)
  nextEntry : Option (siblingSetIteratorEntry SiblingSet Err)

/-- The constructor `NewMemorySiblingSetIterator`. -/
def NewMemorySiblingSetIterator {SiblingSet Err : Type} : MemorySiblingSetIterator SiblingSet Err :=
  { entries := [], nextEntry := none }

namespace MemorySiblingSetIterator

variable {SiblingSet Err : Type}

/-- The method `AppendNext`. -/
def AppendNext (iter : MemorySiblingSetIterator SiblingSet Err) (pfx key : Option GoString)
    (value : Option SiblingSet) (err : Option Err) : MemorySiblingSetIterator SiblingSet Err :=
  { iter with
    entries := iter.entries ++
      [{ Prefix := pfx, Key := key, Value := value, Error := err }] }

/-- The method `Next`: the boolean result and the updated iterator. -/
def Next (iter : MemorySiblingSetIterator SiblingSet Err) :
    Bool × MemorySiblingSetIterator SiblingSet Err :=
  let iter1 := { iter with nextEntry := none }
  match iter1.entries with
  | [] => (false, iter1)
  | e :: rest =>
    let iter2 : MemorySiblingSetIterator SiblingSet Err := { entries := rest, nextEntry := some e }
    if e.Error.isSome then (false, iter2) else (true, iter2)

/-- The method `Prefix`: dereferences `nextEntry`. -/
def Prefix (iter : MemorySiblingSetIterator SiblingSet Err) : Except Panic (Option GoString) :=
  match iter.nextEntry with
  | none => .error .nilDereference
  | some e => .ok e.Prefix

/-- The method `Key`: dereferences `nextEntry`. -/
def Key (iter : MemorySiblingSetIterator SiblingSet Err) : Except Panic (Option GoString) :=
  match iter.nextEntry with
  | none => .error .nilDereference
  | some e => .ok e.Key

/-- The method `Value`: dereferences `nextEntry`. -/
def Value (iter : MemorySiblingSetIterator SiblingSet Err) : Except Panic (Option SiblingSet) :=
  match iter.nextEntry with
  | none => .error .nilDereference
  | some e => .ok e.Value

/-- The method `LocalVersion`. -/
def LocalVersion (_iter : MemorySiblingSetIterator SiblingSet Err) : Nat := 0

/-- The method `Release`: the body is empty. -/
def Release (iter : MemorySiblingSetIterator SiblingSet Err) :
    MemorySiblingSetIterator SiblingSet Err := iter

/-- The method `Error`. -/
def Error (iter : MemorySiblingSetIterator SiblingSet Err) : Option Err :=
  match iter.nextEntry with
  | none => none
  | some e => e.Error

/-- The calls `AppendNext(p, k, v, err)` for the tuples of a list, in order. -/
def appendAll (iter : MemorySiblingSetIterator SiblingSet Err)
    (es : List (siblingSetIteratorEntry SiblingSet Err)) : MemorySiblingSetIterator SiblingSet Err :=
  es.foldl (fun it e => it.AppendNext e.Prefix e.Key e.Value e.Error) iter

/-- The state after `n` successive calls of `Next`. -/
def afterNexts : Nat → MemorySiblingSetIterator SiblingSet Err →
    MemorySiblingSetIterator SiblingSet Err
  | 0, iter => iter
  | n + 1, iter => afterNexts n iter.Next.2

end MemorySiblingSetIterator

/-! ## `DefaultBucket` (the built-in default bucket) -/

/-- The struct `DefaultBucket` of `bucket/builtin/default.go`: it embeds a `Store`, a type
declared outside these sources and taken here as a parameter. -/
structure DefaultBucket (StoreT : Type) where
  Store : StoreT

/-- The method `DefaultBucket.Name`: the string `"default"`. -/
def DefaultBucket.Name {StoreT : Type} (_defaultBucket : DefaultBucket StoreT) : GoString :=
  [100, 101, 102, 97, 117, 108, 116]

/-- The method `DefaultBucket.ShouldReplicateOutgoing`. -/
def DefaultBucket.ShouldReplicateOutgoing {StoreT : Type} (_defaultBucket : DefaultBucket StoreT)
    (_peerID : GoString) : Bool := true

/-- The method `DefaultBucket.ShouldReplicateIncoming`. -/
def DefaultBucket.ShouldReplicateIncoming {StoreT : Type} (_defaultBucket : DefaultBucket StoreT)
    (_peerID : GoString) : Bool := true

/-- The method `DefaultBucket.ShouldAcceptWrites`. -/
def DefaultBucket.ShouldAcceptWrites {StoreT : Type} (_defaultBucket : DefaultBucket StoreT)
    (_clientID : GoString) : Bool := true

/-- The method `DefaultBucket.ShouldAcceptReads`. -/
def DefaultBucket.ShouldAcceptReads {StoreT : Type} (_defaultBucket : DefaultBucket StoreT)
    (_clientID : GoString) : Bool := true

/-! ## The observations and orders the properties are stated with -/

open SiblingSetMergeIterator

/-- The pairs read by a traversal of the groups `ks` labelled by the prefixes `ps`. -/
def flatten (ps : List GoString) (ks : List (List GoString)) : List (GoString × GoString) :=
  (List.zip ps ks).flatMap fun g => g.2.map fun k => (g.1, k)

/-- The pairs still to be read when the cursor stands in group `i` before its key `m`. -/
def restFrom (ps : List GoString) (ks : List (List GoString)) (i m : Nat) :
    List (GoString × GoString) :=
  ((ks.getD i []).drop m).map (fun k => (ps.getD i [], k)) ++
    flatten (ps.drop (i + 1)) (ks.drop (i + 1))

/-- A pair as the accessors return it: both slices non-nil. -/
def yielded (e : GoString × GoString) : Option GoString × Option GoString := (some e.1, some e.2)

/-- The elements of a list whose `f`-value has not occurred earlier in the list, in order. -/
def firstBy {α β : Type} [DecidableEq β] (f : α → β) : List α → List α
  | [] => []
  | a :: l => a :: (firstBy f l).filter (fun b => f b ≠ f a)

/-- The `AddKey` calls of a sequence that are the first call of their key, in order. -/
def accepted (calls : List (GoString × GoString)) : List (GoString × GoString) :=
  firstBy Prod.snd calls

/-- The prefixes in the order in which they first received a key that was not a duplicate. -/
def prefixOrder (calls : List (GoString × GoString)) : List GoString :=
  firstBy id ((accepted calls).map Prod.fst)

/-- The keys whose first `AddKey` call was made under the prefix `p`, in the order of these
calls. -/
def groupOf (calls : List (GoString × GoString)) (p : GoString) : List GoString :=
  ((accepted calls).filter (fun c => c.1 = p)).map Prod.snd

/-- The state an iterator is in after the `AddKey` calls `calls` were made on a fresh iterator
built over the read merger `rm`. -/
structure Built {SiblingSet : Type} (rm : GoString → Option SiblingSet)
    (calls : List (GoString × GoString))
    (s : SiblingSetMergeIterator SiblingSet) : Prop where
  readMerger_eq : s.readMerger = rm
  prefixIndex_eq : s.currentPrefixIndex = -1
  keyIndex_eq : s.currentKeyIndex = -1
  prefixes_eq : s.prefixes = prefixOrder calls
  keys_eq : s.keys = (prefixOrder calls).map (groupOf calls)
  keySet_iff : ∀ k, (s.keySet.get? k).isSome = true ↔ k ∈ calls.map Prod.snd
  prefixIndexes_iff : ∀ p (i : Int), s.prefixIndexes.get? p = some i ↔
    (0 ≤ i ∧ (prefixOrder calls)[i.toNat]? = some p)

/-- A key list as the traversal meets it: sorted by `SortKeys` when `sorted` holds, as
inserted otherwise. -/
def arrange (sorted : Bool) (g : List GoString) : List GoString :=
  if sorted then sortStrings g else g

/-- The pairs `(prefix, key)` read by the traversal of an iterator built by the `AddKey` calls
`calls`, after `SortKeys` when `sorted` holds: the groups in first-seen prefix order. -/
def traversal (sorted : Bool) (calls : List (GoString × GoString)) : List (GoString × GoString) :=
  (prefixOrder calls).flatMap fun p => (arrange sorted (groupOf calls p)).map fun k => (p, k)

/-- The iterator on which the traversal runs: with or without a call of `SortKeys`. -/
def prepared {SiblingSet : Type} (sorted : Bool)
    (s : SiblingSetMergeIterator SiblingSet) :
    SiblingSetMergeIterator SiblingSet :=
  if sorted then s.SortKeys else s

/-- The cursor stands on a key: what `Next` establishes when it answers `true`. -/
def ValidCursor {SiblingSet : Type} (s : SiblingSetMergeIterator SiblingSet) : Prop :=
  0 ≤ s.currentPrefixIndex ∧ 0 ≤ s.currentKeyIndex ∧
    s.currentKeyIndex < ((s.keys.getD s.currentPrefixIndex.toNat []).length : Int)

/-- The structural invariant of the merge iterator. -/
structure Invariant {SiblingSet : Type} (s : SiblingSetMergeIterator SiblingSet) : Prop where
  length_eq : s.prefixes.length = s.keys.length
  prefixes_nodup : s.prefixes.Nodup
  prefixIndexes_iff : ∀ p (i : Int), s.prefixIndexes.get? p = some i ↔
    (0 ≤ i ∧ s.prefixes[i.toNat]? = some p)
  groups_ne_nil : ∀ g ∈ s.keys, g ≠ []
  keys_nodup : s.keys.flatten.Nodup
  keySet_iff : ∀ k, (s.keySet.get? k).isSome = true ↔ k ∈ s.keys.flatten
  keyIndex_ge : -1 ≤ s.currentKeyIndex

/-- The cursor is past the last group: what `Next` leaves behind when it answers `false`. -/
def Exhausted {SiblingSet : Type} (s : SiblingSetMergeIterator SiblingSet) : Prop :=
  0 ≤ s.currentPrefixIndex ∧ (s.keys.length : Int) ≤ s.currentPrefixIndex

/-- Whether a call is an `AddKey`. -/
def SiblingSetMergeIterator.Op.isAddKey : Op → Bool
  | .addKey _ _ => true
  | _ => false

/-! ## Concrete inputs -/

namespace Example

/-- Two replica entries with a nil error. -/
def goodEntries : List (siblingSetIteratorEntry Nat Unit) :=
  [⟨some [1], some [2], some 7, none⟩, ⟨some [1], some [3], none, none⟩]

/-- A replica iterator whose only entry carries an error. -/
def faulty : MemorySiblingSetIterator Nat Unit :=
  { entries := [⟨some [1], some [2], none, some ()⟩], nextEntry := none }

/-- A replica iterator with a failing entry followed by a good one. -/
def faultyThenGood : MemorySiblingSetIterator Nat Unit :=
  { entries := [⟨some [1], some [2], none, some ()⟩, ⟨some [1], some [3], some 7, none⟩],
    nextEntry := none }

end Example

/-- A read merger that knows no key. -/
def Example.rm : GoString → Option Nat := fun _ => none

/-- The calls `AddKey("p1","k")`, `AddKey("p2","k")`. -/
def Example.dupCalls : List (GoString × GoString) := [([112, 49], [107]), ([112, 50], [107])]

/-- The calls `AddKey("site1","k2")`, `AddKey("site1","k1")`. -/
def Example.siteCalls : List (GoString × GoString) :=
  [([115, 105, 116, 101, 49], [107, 50]), ([115, 105, 116, 101, 49], [107, 49])]

/-- The calls `AddKey("b","y")`, `AddKey("a","x")`, `AddKey("b","x")`, `AddKey("b","z")`. -/
def Example.baCalls : List (GoString × GoString) :=
  [([98], [121]), ([97], [120]), ([98], [120]), ([98], [122])]

/-- The traversal of the iterator built by `calls` over the read merger `rm`, as a consumer
sees it: the pairs read by the loop within `fuel` calls of `Next`. -/
def Example.observe (sorted : Bool) (calls : List (GoString × GoString)) (fuel : Nat) :
    Except Panic (Option (List (Option GoString × Option GoString))) :=
  match addKeys calls (NewSiblingSetMergeIterator Example.rm) with
  | .error e => .error e
  | .ok s => drain fuel (prepared sorted s)

/-- A read merger that answers every key with its length. -/
def Example.lengthMerger : GoString → Option Nat := fun k => some k.length

/-- The state after the calls `ops` on `s` (the state `s` itself should a call panic). -/
def Example.afterOps (ops : List Op) (s : SiblingSetMergeIterator Nat) :
    SiblingSetMergeIterator Nat :=
  match run ops s with
  | .ok s1 => s1
  | .error _ => s

/-- The state after one call of `Next` on `s` (the state `s` itself should the call panic). -/
def Example.afterNext (s : SiblingSetMergeIterator Nat) : SiblingSetMergeIterator Nat :=
  match s.Next with
  | .ok r => r.2
  | .error _ => s

/-- The calls `AddKey("a","x")`, `AddKey("b","y")`, `AddKey("a","z")`, `AddKey("b","y")`. -/
def Example.abCalls : List (GoString × GoString) :=
  [([97], [120]), ([98], [121]), ([97], [122]), ([98], [121])]

/-- The calls of `abCalls` in another order in which `"a"` still comes before `"b"`. -/
def Example.abCallsPermuted : List (GoString × GoString) :=
  [([97], [122]), ([98], [121]), ([98], [121]), ([97], [120])]

/-! # Theorems -/

/-! ## The replica iterator: append order, exhaustion and faults -/

namespace MemorySiblingSetIterator

variable {SiblingSet Err : Type}

theorem appendAll_entries (es : List (siblingSetIteratorEntry SiblingSet Err))
    (iter : MemorySiblingSetIterator SiblingSet Err) :
    (iter.appendAll es).entries = iter.entries ++ es := by
  induction es generalizing iter with
  | nil => simp [appendAll]
  | cons e es ih =>
    have h := ih (iter.AppendNext e.Prefix e.Key e.Value e.Error)
    simp only [appendAll, List.foldl_cons] at h ⊢
    rw [h]
    simp [AppendNext]

theorem afterNexts_succ (n : Nat) (iter : MemorySiblingSetIterator SiblingSet Err) :
    afterNexts (n + 1) iter = (afterNexts n iter).Next.2 := by
  induction n generalizing iter with
  | zero => rfl
  | succ n ih =>
    show afterNexts (n + 1) iter.Next.2 = _
    rw [ih]
    rfl

theorem Next_cons_ok (iter : MemorySiblingSetIterator SiblingSet Err)
    (e : siblingSetIteratorEntry SiblingSet Err) (rest : List (siblingSetIteratorEntry SiblingSet Err))
    (h : iter.entries = e :: rest) (he : e.Error = none) :
    iter.Next = (true, { entries := rest, nextEntry := some e }) := by
  simp [Next, h, he]

theorem Next_cons_err (iter : MemorySiblingSetIterator SiblingSet Err)
    (e : siblingSetIteratorEntry SiblingSet Err) (rest : List (siblingSetIteratorEntry SiblingSet Err))
    (h : iter.entries = e :: rest) (he : e.Error ≠ none) :
    iter.Next = (false, { entries := rest, nextEntry := some e }) := by
  have : e.Error.isSome = true := by
    cases h' : e.Error with
    | none => exact absurd h' he
    | some x => rfl
  simp [Next, h, this]

theorem Next_nil (iter : MemorySiblingSetIterator SiblingSet Err) (h : iter.entries = []) :
    iter.Next = (false, { entries := [], nextEntry := none }) := by
  simp [Next, h]

theorem Next_entries (iter : MemorySiblingSetIterator SiblingSet Err) :
    iter.Next.2.entries = iter.entries.tail := by
  cases h : iter.entries with
  | nil => rw [Next_nil iter h]; rfl
  | cons e rest =>
    by_cases he : e.Error = none
    · rw [Next_cons_ok iter e rest h he]; rfl
    · rw [Next_cons_err iter e rest h he]; rfl

theorem afterNexts_entries (n : Nat) (iter : MemorySiblingSetIterator SiblingSet Err) :
    (afterNexts n iter).entries = iter.entries.drop n := by
  induction n with
  | zero => rfl
  | succ n ih =>
    rw [afterNexts_succ, Next_entries, ih, List.tail_drop]

theorem all_false_iff (iter : MemorySiblingSetIterator SiblingSet Err) :
    (∀ n, (afterNexts n iter).Next.1 = false) ↔ ∀ e ∈ iter.entries, e.Error ≠ none := by
  constructor
  · intro h e he
    obtain ⟨i, hi, rfl⟩ := List.getElem_of_mem he
    intro hnone
    have hd : (afterNexts i iter).entries = iter.entries[i] :: iter.entries.drop (i + 1) := by
      rw [afterNexts_entries]; exact List.drop_eq_getElem_cons hi
    have := h i
    rw [Next_cons_ok _ _ _ hd hnone] at this
    exact Bool.noConfusion this
  · intro h n
    cases hd : (afterNexts n iter).entries with
    | nil => rw [Next_nil _ hd]
    | cons e rest =>
      have hmem : e ∈ iter.entries := by
        have h1 : e ∈ (afterNexts n iter).entries := by rw [hd]; exact List.mem_cons_self _ _
        rw [afterNexts_entries] at h1
        exact List.mem_of_mem_drop h1
      rw [Next_cons_err _ e rest hd (h e hmem)]

/-- C7: an iterator built from a fresh one by `n` calls of `AppendNext`, all with a nil error,
answers `true` to its first `n` calls of `Next`; after the `i`-th of them `Prefix()`, `Key()`
and `Value()` return the prefix, key and value of the `i`-th `AppendNext`; the call number
`n + 1` answers `false`. -/
theorem replica_iterator_append_order (es : List (siblingSetIteratorEntry SiblingSet Err))
    (hnil : ∀ e ∈ es, e.Error = none) :
    (∀ i (hi : i < es.length),
      (afterNexts i (NewMemorySiblingSetIterator.appendAll es)).Next.1 = true ∧
      (afterNexts (i + 1) (NewMemorySiblingSetIterator.appendAll es)).Prefix
        = .ok (es.get ⟨i, hi⟩).Prefix ∧
      (afterNexts (i + 1) (NewMemorySiblingSetIterator.appendAll es)).Key
        = .ok (es.get ⟨i, hi⟩).Key ∧
      (afterNexts (i + 1) (NewMemorySiblingSetIterator.appendAll es)).Value
        = .ok (es.get ⟨i, hi⟩).Value) ∧
    (afterNexts es.length (NewMemorySiblingSetIterator.appendAll es)).Next.1 = false := by
  have hent : (NewMemorySiblingSetIterator.appendAll es).entries = es := by
    rw [appendAll_entries]; rfl
  refine ⟨fun i hi => ?_, ?_⟩
  · have hd : (afterNexts i (NewMemorySiblingSetIterator.appendAll es)).entries
        = es.get ⟨i, hi⟩ :: es.drop (i + 1) := by
      rw [afterNexts_entries, hent]; exact List.drop_eq_getElem_cons hi
    have hn := Next_cons_ok _ _ _ hd (hnil _ (List.get_mem es i hi))
    rw [afterNexts_succ, hn]
    exact ⟨rfl, rfl, rfl, rfl⟩
  · have hd : (afterNexts es.length (NewMemorySiblingSetIterator.appendAll es)).entries = [] := by
      rw [afterNexts_entries, hent]; exact List.drop_length es
    rw [Next_nil _ hd]

/-- Witness of C7: two appended entries with a nil error. -/
theorem replica_iterator_append_order_witness :
    (∀ e ∈ Example.goodEntries, e.Error = none) ∧
    (afterNexts Example.goodEntries.length
      (NewMemorySiblingSetIterator.appendAll Example.goodEntries)).Next.1 = false :=
  ⟨by simp [Example.goodEntries],
   (replica_iterator_append_order Example.goodEntries (by simp [Example.goodEntries])).2⟩

/-- The scenario of C7 evaluated: the first `Next` yields the first appended entry, the third
`Next` answers `false` with a nil `Error()`. -/
theorem replica_iterator_append_order_example :
    (afterNexts 1 (NewMemorySiblingSetIterator.appendAll Example.goodEntries)).Key
      = .ok (some [2]) ∧
    (afterNexts 1 (NewMemorySiblingSetIterator.appendAll Example.goodEntries)).Value
      = .ok (some 7) ∧
    (afterNexts 2 (NewMemorySiblingSetIterator.appendAll Example.goodEntries)).Next.1 = false ∧
    (afterNexts 3 (NewMemorySiblingSetIterator.appendAll Example.goodEntries)).Error = none :=
  ⟨rfl, rfl, rfl, rfl⟩

/-- C8: a call of `Next` answers `false` exactly when no entry remains or the entry at the head
carries a non-nil error; in the first case `Error()` is nil afterwards, in the second it is
that error; after a call of `Next` that answered `true`, `Error()` is nil. -/
theorem replica_iterator_error_after_next (iter : MemorySiblingSetIterator SiblingSet Err) :
    (iter.Next.1 = false ↔
      (iter.entries = [] ∨ ∃ e, iter.entries.head? = some e ∧ e.Error ≠ none)) ∧
    (iter.entries = [] → iter.Next.2.Error = none) ∧
    (∀ e, iter.entries.head? = some e → e.Error ≠ none → iter.Next.2.Error = e.Error) ∧
    (iter.Next.1 = true → iter.Next.2.Error = none) := by
  cases h : iter.entries with
  | nil =>
    rw [Next_nil iter h]
    simp [Error]
  | cons e rest =>
    by_cases he : e.Error = none
    · rw [Next_cons_ok iter e rest h he]
      simp [Error, he]
    · rw [Next_cons_err iter e rest h he]
      simp [Error, he]

/-- Counterexample to C9: with a failing entry followed by a good one, the first `Next`
answers `false` with a non-nil `Error()`, and the second `Next` answers `true` and yields the
entry appended after the failing one; so the claim does not hold of every iterator. -/
theorem replica_iterator_fault_not_latched :
    (Example.faultyThenGood.Next.1 = false ∧
      Example.faultyThenGood.Next.2.Error = some () ∧
      Example.faultyThenGood.Next.2.Next.1 = true ∧
      Example.faultyThenGood.Next.2.Next.2.Key = .ok (some [3])) ∧
    ¬ (∀ iter : MemorySiblingSetIterator Nat Unit,
        iter.Next.1 = false → iter.Next.2.Error ≠ none →
        ∀ n, (afterNexts n iter.Next.2).Next.1 = false) := by
  refine ⟨⟨rfl, rfl, rfl, rfl⟩, ?_⟩
  intro h
  have := h Example.faultyThenGood (by decide) (by decide) 0
  revert this
  decide

theorem Next_at (iter : MemorySiblingSetIterator SiblingSet Err)
    (e : siblingSetIteratorEntry SiblingSet Err) (rest : List (siblingSetIteratorEntry SiblingSet Err))
    (h : iter.entries = e :: rest) :
    iter.Next = (e.Error.isNone, { entries := rest, nextEntry := some e }) := by
  cases he : e.Error with
  | none => rw [Next_cons_ok iter e rest h he]; rfl
  | some x =>
    rw [Next_cons_err iter e rest h (by rw [he]; exact Option.noConfusion)]
    rfl

theorem afterNexts_read (iter : MemorySiblingSetIterator SiblingSet Err) (i : Nat)
    (hi : i < iter.entries.length) :
    (afterNexts i iter).Next
      = ((iter.entries.get ⟨i, hi⟩).Error.isNone,
         { entries := iter.entries.drop (i + 1), nextEntry := some (iter.entries.get ⟨i, hi⟩) }) := by
  have hd : (afterNexts i iter).entries = iter.entries.get ⟨i, hi⟩ :: iter.entries.drop (i + 1) := by
    rw [afterNexts_entries]; exact List.drop_eq_getElem_cons hi
  exact Next_at _ _ _ hd

theorem afterNexts_past (iter : MemorySiblingSetIterator SiblingSet Err) (n : Nat)
    (hn : iter.entries.length ≤ n) :
    (afterNexts n iter).Next = (false, { entries := [], nextEntry := none }) := by
  have hd : (afterNexts n iter).entries = [] := by
    rw [afterNexts_entries]; exact List.drop_eq_nil_of_le hn
  exact Next_nil _ hd

/-- C9 as amended: once `Next` has answered `false` with a non-nil `Error()`, the failing entry
was the head and has been consumed, and the fault is not latched: the `i`-th later call of
`Next` reads the `i`-th entry left after the failing one, answers `true` exactly when that
entry has a nil error, and afterwards `Prefix()`, `Key()`, `Value()` and `Error()` return the
fields of that entry; the calls after the last entry answer `false` with a nil `Error()`.
Hence every later call of `Next` answers `false` if and only if every entry left after the
failing one carries a non-nil error. -/
theorem replica_iterator_after_fault (iter : MemorySiblingSetIterator SiblingSet Err)
    (hfalse : iter.Next.1 = false) (herr : iter.Next.2.Error ≠ none) :
    (∃ e, iter.entries = e :: iter.entries.tail ∧ e.Error ≠ none ∧
      iter.Next.2 = { entries := iter.entries.tail, nextEntry := some e }) ∧
    (∀ i (hi : i < iter.entries.tail.length),
      (afterNexts i iter.Next.2).Next.1 = (iter.entries.tail.get ⟨i, hi⟩).Error.isNone ∧
      (afterNexts (i + 1) iter.Next.2).Prefix = .ok (iter.entries.tail.get ⟨i, hi⟩).Prefix ∧
      (afterNexts (i + 1) iter.Next.2).Key = .ok (iter.entries.tail.get ⟨i, hi⟩).Key ∧
      (afterNexts (i + 1) iter.Next.2).Value = .ok (iter.entries.tail.get ⟨i, hi⟩).Value ∧
      (afterNexts (i + 1) iter.Next.2).Error = (iter.entries.tail.get ⟨i, hi⟩).Error) ∧
    (∀ n, iter.entries.tail.length ≤ n →
      (afterNexts n iter.Next.2).Next.1 = false ∧
      (afterNexts (n + 1) iter.Next.2).Error = none) ∧
    ((∀ n, (afterNexts n iter.Next.2).Next.1 = false) ↔
      ∀ e ∈ iter.entries.tail, e.Error ≠ none) := by
  have hent : iter.Next.2.entries = iter.entries.tail := Next_entries iter
  refine ⟨?_, ?_, ?_, ?_⟩
  · cases h : iter.entries with
    | nil =>
      rw [Next_nil iter h] at herr
      exact absurd rfl herr
    | cons e rest =>
      by_cases he : e.Error = none
      · rw [Next_cons_ok iter e rest h he] at hfalse
        exact Bool.noConfusion hfalse
      · exact ⟨e, rfl, he, by rw [Next_cons_err iter e rest h he]; rfl⟩
  · intro i hi
    have hi' : i < iter.Next.2.entries.length := by rw [hent]; exact hi
    have hget : iter.Next.2.entries.get ⟨i, hi'⟩ = iter.entries.tail.get ⟨i, hi⟩ := by
      simp only [List.get_eq_getElem, hent]
    have hread := afterNexts_read iter.Next.2 i hi'
    rw [hget] at hread
    rw [afterNexts_succ, hread]
    exact ⟨rfl, rfl, rfl, rfl, rfl⟩
  · intro n hn
    have hpast := afterNexts_past iter.Next.2 n (by rw [hent]; exact hn)
    rw [afterNexts_succ, hpast]
    exact ⟨rfl, rfl⟩
  · rw [all_false_iff, hent]

/-- Witness of the amended C9: a failing entry followed by a good one; the second call of
`Next` answers `true` and yields the good entry. -/
theorem replica_iterator_after_fault_witness :
    (Example.faultyThenGood.Next.1 = false ∧ Example.faultyThenGood.Next.2.Error ≠ none) ∧
    (∃ e, Example.faultyThenGood.entries = e :: Example.faultyThenGood.entries.tail ∧
      e.Error ≠ none ∧
      Example.faultyThenGood.Next.2
        = { entries := Example.faultyThenGood.entries.tail, nextEntry := some e }) ∧
    (∀ i (hi : i < Example.faultyThenGood.entries.tail.length),
      (afterNexts i Example.faultyThenGood.Next.2).Next.1
        = (Example.faultyThenGood.entries.tail.get ⟨i, hi⟩).Error.isNone ∧
      (afterNexts (i + 1) Example.faultyThenGood.Next.2).Prefix
        = .ok (Example.faultyThenGood.entries.tail.get ⟨i, hi⟩).Prefix ∧
      (afterNexts (i + 1) Example.faultyThenGood.Next.2).Key
        = .ok (Example.faultyThenGood.entries.tail.get ⟨i, hi⟩).Key ∧
      (afterNexts (i + 1) Example.faultyThenGood.Next.2).Value
        = .ok (Example.faultyThenGood.entries.tail.get ⟨i, hi⟩).Value ∧
      (afterNexts (i + 1) Example.faultyThenGood.Next.2).Error
        = (Example.faultyThenGood.entries.tail.get ⟨i, hi⟩).Error) ∧
    (∀ n, Example.faultyThenGood.entries.tail.length ≤ n →
      (afterNexts n Example.faultyThenGood.Next.2).Next.1 = false ∧
      (afterNexts (n + 1) Example.faultyThenGood.Next.2).Error = none) ∧
    ((∀ n, (afterNexts n Example.faultyThenGood.Next.2).Next.1 = false) ↔
      ∀ e ∈ Example.faultyThenGood.entries.tail, e.Error ≠ none) :=
  ⟨⟨by decide, by decide⟩,
    replica_iterator_after_fault Example.faultyThenGood (by decide) (by decide)⟩

/-- The amended C9 evaluated: after the fault the second `Next` answers `true` and the
accessors return the entry appended after the failing one; with a single failing entry every
later `Next` answers `false`. -/
theorem replica_iterator_after_fault_example :
    Example.faultyThenGood.Next.1 = false ∧
    Example.faultyThenGood.Next.2.Error = some () ∧
    Example.faultyThenGood.Next.2.Next.1 = true ∧
    Example.faultyThenGood.Next.2.Next.2.Prefix = .ok (some [1]) ∧
    Example.faultyThenGood.Next.2.Next.2.Key = .ok (some [3]) ∧
    Example.faultyThenGood.Next.2.Next.2.Value = .ok (some 7) ∧
    Example.faultyThenGood.Next.2.Next.2.Error = none ∧
    Example.faultyThenGood.Next.2.Next.2.Next.1 = false ∧
    Example.faulty.Next.1 = false ∧ Example.faulty.Next.2.Error = some () ∧
    Example.faulty.Next.2.Next.1 = false ∧ Example.faulty.Next.2.Next.2.Error = none :=
  ⟨rfl, rfl, rfl, rfl, rfl, rfl, rfl, rfl, rfl, rfl, rfl, rfl⟩

end MemorySiblingSetIterator

/-! ## The merge iterator: `Next`, the accessors and the consumer loop -/

open SiblingSetMergeIterator

variable {SiblingSet : Type}

theorem index_natCast {α : Type} (xs : List α) (i : Nat) (h : i < xs.length) :
    index xs (i : Int) = .ok (xs.get ⟨i, h⟩) := by
  simp [index, List.getElem?_eq_getElem h]

theorem index_eq_ok {α : Type} (xs : List α) (i : Int) (x : α) :
    index xs i = .ok x ↔ 0 ≤ i ∧ xs[i.toNat]? = some x := by
  unfold index
  split
  · rename_i h
    cases hx : xs[i.toNat]? with
    | none => simp [h]
    | some y => simp [h]
  · rename_i h
    simp [h]

/-- `Next` inside a group: the key index moves on by one. -/
theorem merge_Next_stay (s : SiblingSetMergeIterator SiblingSet) (i m : Nat)
    (hi : i < s.keys.length) (hp : s.currentPrefixIndex = (i : Int))
    (hk : s.currentKeyIndex + 1 = (m : Int)) (hm : m < (s.keys.get ⟨i, hi⟩).length) :
    s.Next = .ok (true, { s with currentKeyIndex := (m : Int) }) := by
  have h0 : ¬ ((i : Int) < 0) := by omega
  have h1 : ((i : Int) < (s.keys.length : Int)) := by omega
  simp only [Next, hp, h0, if_false, h1, not_true_eq_false, hk, index_natCast s.keys i hi]
  have h2 : ¬ ((m : Int) ≥ ((s.keys.get ⟨i, hi⟩).length : Int)) := by omega
  have h3 : ((m : Int) < ((s.keys.get ⟨i, hi⟩).length : Int)) := by omega
  simp only [h2, if_false, h1, if_true, index_natCast s.keys i hi, h3, decide_True]

/-- `Next` at the end of a group: the cursor moves to the start of the next group. -/
theorem merge_Next_move (s : SiblingSetMergeIterator SiblingSet) (i m : Nat)
    (hi : i < s.keys.length) (hp : s.currentPrefixIndex = (i : Int))
    (hk : s.currentKeyIndex + 1 = (m : Int)) (hm : (s.keys.get ⟨i, hi⟩).length ≤ m) :
    s.Next = .ok (decide (0 < (s.keys.getD (i + 1) []).length),
      { s with currentPrefixIndex := (i : Int) + 1, currentKeyIndex := 0 }) := by
  have h0 : ¬ ((i : Int) < 0) := by omega
  have h1 : ((i : Int) < (s.keys.length : Int)) := by omega
  simp only [Next, hp, h0, if_false, h1, not_true_eq_false, hk, index_natCast s.keys i hi]
  have h2 : ((m : Int) ≥ ((s.keys.get ⟨i, hi⟩).length : Int)) := by omega
  simp only [h2, if_true]
  by_cases h4 : i + 1 < s.keys.length
  · have h5 : ((i : Int) + 1 < (s.keys.length : Int)) := by omega
    have h6 := index_natCast s.keys (i + 1) h4
    simp only [Nat.cast_add, Nat.cast_one] at h6
    simp [h5, h6, List.getD_eq_getElem?_getD, List.getElem?_eq_getElem h4]
  · have h5 : ¬ ((i : Int) + 1 < (s.keys.length : Int)) := by omega
    have h6 : s.keys.length ≤ i + 1 := by omega
    simp [h5, List.getD_eq_getElem?_getD, List.getElem?_eq_none h6]

theorem merge_Next_fresh (s : SiblingSetMergeIterator SiblingSet) (h : s.currentPrefixIndex < 0) :
    s.Next = ({ s with currentPrefixIndex := 0 } : SiblingSetMergeIterator SiblingSet).Next := by
  simp [Next, h]

theorem merge_Next_done (s : SiblingSetMergeIterator SiblingSet) (h0 : 0 ≤ s.currentPrefixIndex)
    (h : (s.keys.length : Int) ≤ s.currentPrefixIndex) : s.Next = .ok (false, s) := by
  have h1 : ¬ (s.currentPrefixIndex < 0) := by omega
  have h2 : ¬ (s.currentPrefixIndex < (s.keys.length : Int)) := by omega
  simp [Next, h1, h2]


theorem merge_accessors_at (s : SiblingSetMergeIterator SiblingSet) (i j : Nat)
    (hlen : s.prefixes.length = s.keys.length)
    (hi : i < s.keys.length) (hp : s.currentPrefixIndex = (i : Int))
    (hk : s.currentKeyIndex = (j : Int)) (hj : j < (s.keys.get ⟨i, hi⟩).length) :
    s.Prefix = .ok (some (s.prefixes.get ⟨i, hlen ▸ hi⟩)) ∧
    s.Key = .ok (some ((s.keys.get ⟨i, hi⟩).get ⟨j, hj⟩)) ∧
    s.Value = .ok (s.readMerger ((s.keys.get ⟨i, hi⟩).get ⟨j, hj⟩)) := by
  have hg : ¬ s.noCurrentGroup := by
    unfold noCurrentGroup
    omega
  have h2 : ¬ ((j : Int) ≥ ((s.keys.get ⟨i, hi⟩).length : Int)) := by omega
  refine ⟨?_, ?_, ?_⟩
  · simp only [Prefix, hg, if_false, hp, index_natCast s.prefixes i (hlen ▸ hi)]
  · simp only [Key, hg, if_false, hp, index_natCast s.keys i hi, hk, h2,
      index_natCast (s.keys.get ⟨i, hi⟩) j hj]
  · simp only [Value, hg, if_false, hp, index_natCast s.keys i hi, hk, h2,
      index_natCast (s.keys.get ⟨i, hi⟩) j hj]

theorem flatten_nil_right (ps : List GoString) : flatten ps [] = [] := by
  simp [flatten]

theorem flatten_cons (p : GoString) (ps : List GoString) (g : List GoString)
    (ks : List (List GoString)) :
    flatten (p :: ps) (g :: ks) = g.map (fun k => (p, k)) ++ flatten ps ks := by
  simp [flatten]

theorem flatten_drop (ps : List GoString) (ks : List (List GoString)) (i : Nat)
    (hp : i < ps.length) (hk : i < ks.length) :
    flatten (ps.drop i) (ks.drop i) = restFrom ps ks i 0 := by
  rw [List.drop_eq_getElem_cons hp, List.drop_eq_getElem_cons hk, flatten_cons]
  simp [restFrom, List.getD_eq_getElem?_getD, List.getElem?_eq_getElem hp,
    List.getElem?_eq_getElem hk]

theorem restFrom_stay (ps : List GoString) (ks : List (List GoString)) (i m : Nat)
    (hp : i < ps.length) (hk : i < ks.length) (hm : m < (ks.get ⟨i, hk⟩).length) :
    restFrom ps ks i m = (ps.get ⟨i, hp⟩, (ks.get ⟨i, hk⟩).get ⟨m, hm⟩) :: restFrom ps ks i (m + 1) := by
  have hm' : m < ks[i].length := hm
  have hd : (ks.getD i []).drop m = (ks.get ⟨i, hk⟩).get ⟨m, hm⟩ :: (ks.getD i []).drop (m + 1) := by
    have : ks.getD i [] = ks[i] := by
      simp [List.getD_eq_getElem?_getD, List.getElem?_eq_getElem hk]
    rw [this]
    exact List.drop_eq_getElem_cons hm'
  have hpd : ps.getD i [] = ps.get ⟨i, hp⟩ := by
    simp [List.getD_eq_getElem?_getD, List.getElem?_eq_getElem hp]
  unfold restFrom
  rw [hd, hpd]
  rfl

theorem restFrom_move (ps : List GoString) (ks : List (List GoString)) (i m : Nat)
    (hk : i < ks.length) (hm : (ks.get ⟨i, hk⟩).length ≤ m) :
    restFrom ps ks i m = flatten (ps.drop (i + 1)) (ks.drop (i + 1)) := by
  have hm' : ks[i].length ≤ m := hm
  simp [restFrom, List.getD_eq_getElem?_getD, List.getElem?_eq_getElem hk,
    List.drop_eq_nil_of_le hm']


theorem merge_drain_from (fuel : Nat) : ∀ (s : SiblingSetMergeIterator SiblingSet) (i m : Nat),
    s.prefixes.length = s.keys.length → (∀ g ∈ s.keys, g ≠ []) →
    i < s.keys.length → s.currentPrefixIndex = (i : Int) → s.currentKeyIndex + 1 = (m : Int) →
    (restFrom s.prefixes s.keys i m).length < fuel →
    drain fuel s = .ok (some ((restFrom s.prefixes s.keys i m).map yielded)) := by
  induction fuel with
  | zero => intro s i m _ _ _ _ _ hf; exact absurd hf (Nat.not_lt_zero _)
  | succ fuel ih =>
    intro s i m hlen hne hi hp hk hf
    have hip : i < s.prefixes.length := hlen ▸ hi
    by_cases hm : m < (s.keys.get ⟨i, hi⟩).length
    · have hN := merge_Next_stay s i m hi hp hk hm
      have hacc := merge_accessors_at
        ({ s with currentKeyIndex := (m : Int) } : SiblingSetMergeIterator SiblingSet)
        i m hlen hi hp rfl hm
      have hrest := restFrom_stay s.prefixes s.keys i m hip hi hm
      rw [hrest] at hf ⊢
      have hrec := ih ({ s with currentKeyIndex := (m : Int) } : SiblingSetMergeIterator SiblingSet)
        i (m + 1) hlen hne hi hp (by simp) (by simpa using hf)
      simp only [drain, hN, hacc.1, hacc.2.1, hrec]
      rfl
    · have hm' : (s.keys.get ⟨i, hi⟩).length ≤ m := Nat.le_of_not_lt hm
      have hN := merge_Next_move s i m hi hp hk hm'
      have hrest := restFrom_move s.prefixes s.keys i m hi hm'
      by_cases hi1 : i + 1 < s.keys.length
      · have hip1 : i + 1 < s.prefixes.length := hlen ▸ hi1
        have hg : s.keys.get ⟨i + 1, hi1⟩ ≠ [] := hne _ (List.get_mem _ _ _)
        have hpos : 0 < (s.keys.get ⟨i + 1, hi1⟩).length := List.length_pos.2 hg
        have hd : s.keys.getD (i + 1) [] = s.keys.get ⟨i + 1, hi1⟩ := by
          simp [List.getD_eq_getElem?_getD, List.getElem?_eq_getElem hi1]
        rw [hd] at hN
        simp only [hpos, decide_True] at hN
        have hacc := merge_accessors_at
          ({ s with currentPrefixIndex := (i : Int) + 1, currentKeyIndex := 0 } :
            SiblingSetMergeIterator SiblingSet)
          (i + 1) 0 hlen hi1 (by simp) (by simp) hpos
        rw [hrest, flatten_drop _ _ _ hip1 hi1,
          restFrom_stay s.prefixes s.keys (i + 1) 0 hip1 hi1 hpos] at hf ⊢
        have hrec := ih ({ s with currentPrefixIndex := (i : Int) + 1, currentKeyIndex := 0 } :
            SiblingSetMergeIterator SiblingSet)
          (i + 1) 1 hlen hne hi1 (by simp) (by simp) (by simpa using hf)
        simp only [drain, hN, hacc.1, hacc.2.1, hrec]
        rfl
      · have hd : s.keys.getD (i + 1) [] = [] := by
          simp [List.getD_eq_getElem?_getD, List.getElem?_eq_none (Nat.le_of_not_lt hi1)]
        rw [hd] at hN
        have hdrop : s.keys.drop (i + 1) = [] := List.drop_eq_nil_of_le (Nat.le_of_not_lt hi1)
        rw [hrest, hdrop, flatten_nil_right]
        simp only [drain, hN, List.length_nil, Nat.lt_irrefl, decide_False]
        rfl

theorem merge_drain_fresh (s : SiblingSetMergeIterator SiblingSet)
    (hlen : s.prefixes.length = s.keys.length) (hne : ∀ g ∈ s.keys, g ≠ [])
    (hp : s.currentPrefixIndex = -1) (hk : s.currentKeyIndex = -1) (extra : Nat) :
    drain ((flatten s.prefixes s.keys).length + 1 + extra) s
      = .ok (some ((flatten s.prefixes s.keys).map yielded)) := by
  have hneg : s.currentPrefixIndex < 0 := by omega
  have hfresh := merge_Next_fresh s hneg
  have hstep : ∀ fuel, drain (fuel + 1) s
      = drain (fuel + 1) ({ s with currentPrefixIndex := 0 } : SiblingSetMergeIterator SiblingSet) := by
    intro fuel
    simp only [drain, hfresh]
  rw [Nat.add_right_comm, hstep]
  by_cases h0 : 0 < s.keys.length
  · have h0p : 0 < s.prefixes.length := hlen ▸ h0
    have hfl : flatten s.prefixes s.keys = restFrom s.prefixes s.keys 0 0 := by
      have := flatten_drop s.prefixes s.keys 0 h0p h0
      simpa using this
    rw [hfl]
    exact merge_drain_from _ ({ s with currentPrefixIndex := 0 } : SiblingSetMergeIterator SiblingSet)
      0 0 hlen hne h0 rfl (by simp [hk]) (by show (restFrom s.prefixes s.keys 0 0).length < _; omega)
  · have hnil : s.keys = [] := List.length_eq_zero.1 (by omega)
    have hN := merge_Next_done ({ s with currentPrefixIndex := 0 } : SiblingSetMergeIterator SiblingSet)
      (by simp) (by simp [hnil])
    simp only [drain, hN, hnil, flatten_nil_right]
    rfl

/-! ## The first-seen order of keys and prefixes -/

theorem firstBy_snoc_of_not_mem {α β : Type} [DecidableEq β] (f : α → β) (l : List α) (a : α)
    (h : f a ∉ l.map f) : firstBy f (l ++ [a]) = firstBy f l ++ [a] := by
  induction l with
  | nil => simp [firstBy]
  | cons e l ih =>
    have h2 : f a ∉ l.map f := fun hh => h (by simp only [List.map_cons]; exact List.mem_cons_of_mem _ hh)
    have he : f a ≠ f e := fun hh => h (by simp [hh])
    show e :: (firstBy f (l ++ [a])).filter (fun b => f b ≠ f e) = _
    rw [ih h2]
    simp [firstBy, List.filter_append, he]

theorem firstBy_snoc_of_mem {α β : Type} [DecidableEq β] (f : α → β) (l : List α) (a : α)
    (h : f a ∈ l.map f) : firstBy f (l ++ [a]) = firstBy f l := by
  induction l with
  | nil => simp at h
  | cons d l ih =>
    show d :: (firstBy f (l ++ [a])).filter (fun b => f b ≠ f d) = firstBy f (d :: l)
    by_cases h1 : f a ∈ l.map f
    · rw [ih h1]; rfl
    · have hd : f a = f d := by
        simp only [List.map_cons, List.mem_cons] at h
        exact h.resolve_right h1
      rw [firstBy_snoc_of_not_mem f l a h1]
      simp [firstBy, List.filter_append, hd]

theorem mem_firstBy {α β : Type} [DecidableEq β] (f : α → β) (l : List α) (a : α)
    (h : a ∈ firstBy f l) : a ∈ l := by
  induction l with
  | nil => simp [firstBy] at h
  | cons d l ih =>
    simp only [firstBy, List.mem_cons, List.mem_filter] at h
    rcases h with h | h
    · exact h ▸ List.mem_cons_self _ _
    · exact List.mem_cons_of_mem _ (ih h.1)

theorem mem_map_firstBy {α β : Type} [DecidableEq β] (f : α → β) (l : List α) (b : β) :
    b ∈ (firstBy f l).map f ↔ b ∈ l.map f := by
  induction l with
  | nil => simp [firstBy]
  | cons d l ih =>
    simp only [firstBy, List.map_cons, List.mem_cons]
    constructor
    · rintro (h | h)
      · exact Or.inl h
      · obtain ⟨x, hx, rfl⟩ := List.mem_map.1 h
        exact Or.inr (ih.1 (List.mem_map.2 ⟨x, (List.mem_filter.1 hx).1, rfl⟩))
    · rintro (h | h)
      · exact Or.inl h
      · by_cases hb : b = f d
        · exact Or.inl hb
        · obtain ⟨x, hx, rfl⟩ := List.mem_map.1 (ih.2 h)
          exact Or.inr (List.mem_map.2 ⟨x, List.mem_filter.2 ⟨hx, by simpa using hb⟩, rfl⟩)

theorem nodup_map_firstBy {α β : Type} [DecidableEq β] (f : α → β) (l : List α) :
    ((firstBy f l).map f).Nodup := by
  induction l with
  | nil => simp [firstBy]
  | cons d l ih =>
    simp only [firstBy, List.map_cons, List.nodup_cons]
    constructor
    · intro h
      obtain ⟨x, hx, hxd⟩ := List.mem_map.1 h
      have := (List.mem_filter.1 hx).2
      simp [hxd] at this
    · exact (ih.sublist ((List.filter_sublist _).map f))

theorem nodup_firstBy_id {β : Type} [DecidableEq β] (l : List β) : (firstBy id l).Nodup := by
  have := nodup_map_firstBy id l
  simpa using this

theorem mem_firstBy_id {β : Type} [DecidableEq β] (l : List β) (b : β) :
    b ∈ firstBy id l ↔ b ∈ l := by
  have := mem_map_firstBy id l b
  simpa using this

theorem accepted_snoc_dup (calls : List (GoString × GoString)) (c : GoString × GoString)
    (h : c.2 ∈ calls.map Prod.snd) : accepted (calls ++ [c]) = accepted calls :=
  firstBy_snoc_of_mem Prod.snd calls c h

theorem accepted_snoc_new (calls : List (GoString × GoString)) (c : GoString × GoString)
    (h : c.2 ∉ calls.map Prod.snd) : accepted (calls ++ [c]) = accepted calls ++ [c] :=
  firstBy_snoc_of_not_mem Prod.snd calls c h

theorem mem_prefixOrder (calls : List (GoString × GoString)) (p : GoString) :
    p ∈ prefixOrder calls ↔ p ∈ (accepted calls).map Prod.fst :=
  mem_firstBy_id _ p

theorem nodup_prefixOrder (calls : List (GoString × GoString)) : (prefixOrder calls).Nodup :=
  nodup_firstBy_id _

theorem groupOf_eq_nil (calls : List (GoString × GoString)) (p : GoString)
    (h : p ∉ prefixOrder calls) : groupOf calls p = [] := by
  rw [mem_prefixOrder] at h
  unfold groupOf
  rw [List.map_eq_nil_iff, List.filter_eq_nil_iff]
  intro c hc hcp
  exact h (List.mem_map.2 ⟨c, hc, by simpa using hcp⟩)

theorem groupOf_ne_nil (calls : List (GoString × GoString)) (p : GoString)
    (h : p ∈ prefixOrder calls) : groupOf calls p ≠ [] := by
  rw [mem_prefixOrder] at h
  obtain ⟨c, hc, rfl⟩ := List.mem_map.1 h
  unfold groupOf
  intro hnil
  rw [List.map_eq_nil_iff, List.filter_eq_nil_iff] at hnil
  exact hnil c hc (by simp)

theorem prefixOrder_snoc_dup (calls : List (GoString × GoString)) (c : GoString × GoString)
    (h : c.2 ∈ calls.map Prod.snd) : prefixOrder (calls ++ [c]) = prefixOrder calls := by
  unfold prefixOrder
  rw [accepted_snoc_dup _ _ h]

theorem groupOf_snoc_dup (calls : List (GoString × GoString)) (c : GoString × GoString)
    (h : c.2 ∈ calls.map Prod.snd) (p : GoString) :
    groupOf (calls ++ [c]) p = groupOf calls p := by
  unfold groupOf
  rw [accepted_snoc_dup _ _ h]

theorem prefixOrder_snoc_old (calls : List (GoString × GoString)) (c : GoString × GoString)
    (h : c.2 ∉ calls.map Prod.snd) (hp : c.1 ∈ prefixOrder calls) :
    prefixOrder (calls ++ [c]) = prefixOrder calls := by
  rw [mem_prefixOrder] at hp
  unfold prefixOrder
  rw [accepted_snoc_new _ _ h, List.map_append, List.map_singleton]
  exact firstBy_snoc_of_mem id _ _ (by simpa using hp)

theorem prefixOrder_snoc_new (calls : List (GoString × GoString)) (c : GoString × GoString)
    (h : c.2 ∉ calls.map Prod.snd) (hp : c.1 ∉ prefixOrder calls) :
    prefixOrder (calls ++ [c]) = prefixOrder calls ++ [c.1] := by
  rw [mem_prefixOrder] at hp
  unfold prefixOrder
  rw [accepted_snoc_new _ _ h, List.map_append, List.map_singleton]
  exact firstBy_snoc_of_not_mem id _ _ (by simpa using hp)

theorem groupOf_snoc_new (calls : List (GoString × GoString)) (c : GoString × GoString)
    (h : c.2 ∉ calls.map Prod.snd) (p : GoString) :
    groupOf (calls ++ [c]) p = groupOf calls p ++ (if c.1 = p then [c.2] else []) := by
  unfold groupOf
  rw [accepted_snoc_new _ _ h, List.filter_append, List.map_append]
  by_cases hp : c.1 = p
  · simp [hp]
  · simp [hp]

/-! ## The state built by a sequence of `AddKey` calls -/

theorem GoMap.get?_set_self {V : Type} (m : GoMap V) (k : GoString) (v : V) :
    (m.set k v).get? k = some v := by
  simp [GoMap.get?, GoMap.set, List.lookup]

theorem GoMap.get?_set_ne {V : Type} (m : GoMap V) (k k' : GoString) (v : V) (h : k' ≠ k) :
    (m.set k v).get? k' = m.get? k' := by
  have : (k' == k) = false := by simpa using h
  simp [GoMap.get?, GoMap.set, List.lookup, this]

theorem merge_AddKey_dup (s : SiblingSetMergeIterator SiblingSet) (p k : GoString)
    (h : (s.keySet.get? k).isSome = true) : s.AddKey p k = .ok s := by
  simp [AddKey, h]

theorem merge_AddKey_old (s : SiblingSetMergeIterator SiblingSet) (p k : GoString) (i : Nat)
    (h : (s.keySet.get? k).isSome = false) (hp : s.prefixIndexes.get? p = some (i : Int))
    (hi : i < s.keys.length) :
    s.AddKey p k = .ok { s with
      keySet := s.keySet.set k true
      keys := s.keys.set i (s.keys.getD i [] ++ [k]) } := by
  have hd : s.keys.getD i [] = s.keys.get ⟨i, hi⟩ := by
    simp [List.getD_eq_getElem?_getD, List.getElem?_eq_getElem hi]
  simp only [AddKey, h, Bool.false_eq_true, if_false, hp, Option.isSome_some, if_true,
    Option.getD_some, index_natCast s.keys i hi, hd, Int.toNat_ofNat]

theorem merge_AddKey_new (s : SiblingSetMergeIterator SiblingSet) (p k : GoString)
    (h : (s.keySet.get? k).isSome = false) (hp : s.prefixIndexes.get? p = none) :
    s.AddKey p k = .ok { s with
      keySet := s.keySet.set k true
      prefixIndexes := s.prefixIndexes.set p (s.keys.length : Int)
      keys := s.keys ++ [[k]]
      prefixes := s.prefixes ++ [p] } := by
  have hidx : index (s.keys ++ [[]]) (s.keys.length : Int) = .ok [] := by
    rw [index_natCast (s.keys ++ [[]]) s.keys.length (by simp)]
    simp
  simp [AddKey, h, hp, GoMap.get?_set_self, hidx]

theorem merge_run_append (ops1 ops2 : List Op) (s : SiblingSetMergeIterator SiblingSet) :
    run (ops1 ++ ops2) s =
      match run ops1 s with
      | .error e => .error e
      | .ok s1 => run ops2 s1 := by
  induction ops1 generalizing s with
  | nil => rfl
  | cons op ops ih =>
    simp only [List.cons_append, run]
    cases step s op with
    | error e => rfl
    | ok s1 => exact ih s1

theorem map_groupOf_set (l : List GoString) (hl : l.Nodup) (p k : GoString) (i : Nat)
    (g : GoString → List GoString) (hp : l[i]? = some p) :
    l.map (fun q => g q ++ (if p = q then [k] else []))
      = (l.map g).set i ((l.map g).getD i [] ++ [k]) := by
  have hil : i < l.length := by
    by_contra hcon
    rw [List.getElem?_eq_none (Nat.le_of_not_lt hcon)] at hp
    exact Option.noConfusion hp
  have hpi : l[i] = p := by
    rw [List.getElem?_eq_getElem hil] at hp
    exact Option.some.inj hp
  apply List.ext_getElem
  · simp
  · intro j h1 h2
    have hj : j < l.length := by simpa using h1
    simp only [List.getElem_map, List.getElem_set, List.getD_eq_getElem?_getD]
    by_cases hjp : i = j
    · subst hjp
      simp [hpi, List.getElem?_eq_getElem hil]
    · have : p ≠ l[j] := by
        intro h
        apply hjp
        rw [← hpi] at h
        exact (List.Nodup.getElem_inj_iff hl).1 h
      simp [hjp, this]

theorem Built_new (rm : GoString → Option SiblingSet) :
    Built rm [] (NewSiblingSetMergeIterator rm) where
  readMerger_eq := rfl
  prefixIndex_eq := rfl
  keyIndex_eq := rfl
  prefixes_eq := rfl
  keys_eq := rfl
  keySet_iff := by intro k; simp [NewSiblingSetMergeIterator, GoMap.get?]
  prefixIndexes_iff := by
    intro p i
    simp [NewSiblingSetMergeIterator, GoMap.get?, prefixOrder, accepted, firstBy]

theorem Built_keySet_set (calls : List (GoString × GoString)) (c : GoString × GoString)
    (m : GoMap Bool) (h : ∀ k, (m.get? k).isSome = true ↔ k ∈ calls.map Prod.snd) (k : GoString) :
    ((m.set c.2 true).get? k).isSome = true ↔ k ∈ (calls ++ [c]).map Prod.snd := by
  by_cases hk : k = c.2
  · subst hk
    simp [GoMap.get?_set_self]
  · rw [GoMap.get?_set_ne _ _ _ _ hk, h k]
    simp [hk]

theorem Built_step (rm : GoString → Option SiblingSet) (calls : List (GoString × GoString))
    (s : SiblingSetMergeIterator SiblingSet) (c : GoString × GoString) (h : Built rm calls s) :
    ∃ s', s.AddKey c.1 c.2 = .ok s' ∧ Built rm (calls ++ [c]) s' := by
  by_cases hk : c.2 ∈ calls.map Prod.snd
  · refine ⟨s, merge_AddKey_dup s c.1 c.2 ((h.keySet_iff c.2).2 hk), ?_⟩
    have hg : groupOf (calls ++ [c]) = groupOf calls := funext (groupOf_snoc_dup calls c hk)
    refine ⟨h.readMerger_eq, h.prefixIndex_eq, h.keyIndex_eq, ?_, ?_, ?_, ?_⟩
    · rw [prefixOrder_snoc_dup calls c hk]; exact h.prefixes_eq
    · rw [prefixOrder_snoc_dup calls c hk, hg]; exact h.keys_eq
    · intro k
      rw [h.keySet_iff k]
      simp only [List.map_append, List.map_cons, List.map_nil, List.mem_append,
        List.mem_singleton]
      constructor
      · exact Or.inl
      · rintro (h1 | h1)
        · exact h1
        · exact h1 ▸ hk
    · rw [prefixOrder_snoc_dup calls c hk]; exact h.prefixIndexes_iff
  · have hks : (s.keySet.get? c.2).isSome = false := by
      cases hb : (s.keySet.get? c.2).isSome with
      | false => rfl
      | true => exact absurd ((h.keySet_iff c.2).1 hb) hk
    have hg : groupOf (calls ++ [c])
        = fun q => groupOf calls q ++ (if c.1 = q then [c.2] else []) :=
      funext (groupOf_snoc_new calls c hk)
    by_cases hp : c.1 ∈ prefixOrder calls
    · obtain ⟨i, hi, hpi⟩ := List.getElem_of_mem hp
      have hget : (prefixOrder calls)[i]? = some c.1 := by
        rw [List.getElem?_eq_getElem hi, hpi]
      have hidx : s.prefixIndexes.get? c.1 = some (i : Int) :=
        (h.prefixIndexes_iff c.1 i).2 ⟨by omega, by simpa using hget⟩
      have hik : i < s.keys.length := by rw [h.keys_eq]; simpa using hi
      refine ⟨_, merge_AddKey_old s c.1 c.2 i hks hidx hik, ?_⟩
      refine ⟨h.readMerger_eq, h.prefixIndex_eq, h.keyIndex_eq, ?_, ?_, ?_, ?_⟩
      · rw [prefixOrder_snoc_old calls c hk hp]; exact h.prefixes_eq
      · rw [prefixOrder_snoc_old calls c hk hp, hg,
          map_groupOf_set _ (nodup_prefixOrder calls) c.1 c.2 i (groupOf calls) hget]
        show s.keys.set i (s.keys.getD i [] ++ [c.2]) = _
        rw [h.keys_eq]
      · exact Built_keySet_set calls c s.keySet h.keySet_iff
      · rw [prefixOrder_snoc_old calls c hk hp]; exact h.prefixIndexes_iff
    · have hidx : s.prefixIndexes.get? c.1 = none := by
        cases hb : s.prefixIndexes.get? c.1 with
        | none => rfl
        | some i =>
          have := ((h.prefixIndexes_iff c.1 i).1 hb).2
          exact absurd (List.getElem?_mem this) hp
      refine ⟨_, merge_AddKey_new s c.1 c.2 hks hidx, ?_⟩
      have hlen : s.keys.length = (prefixOrder calls).length := by rw [h.keys_eq]; simp
      refine ⟨h.readMerger_eq, h.prefixIndex_eq, h.keyIndex_eq, ?_, ?_, ?_, ?_⟩
      · rw [prefixOrder_snoc_new calls c hk hp]
        show s.prefixes ++ [c.1] = _
        rw [h.prefixes_eq]
      · rw [prefixOrder_snoc_new calls c hk hp, hg]
        show s.keys ++ [[c.2]] = _
        rw [h.keys_eq, List.map_append]
        congr 1
        · apply List.map_congr_left
          intro q hq
          have : c.1 ≠ q := fun hh => hp (hh ▸ hq)
          simp [this]
        · simp [groupOf_eq_nil calls c.1 hp]
      · exact Built_keySet_set calls c s.keySet h.keySet_iff
      · intro q i
        rw [prefixOrder_snoc_new calls c hk hp]
        show (s.prefixIndexes.set c.1 (s.keys.length : Int)).get? q = some i ↔ _
        by_cases hq : q = c.1
        · subst hq
          rw [GoMap.get?_set_self, hlen]
          constructor
          · intro hi
            have hi' : i = ((prefixOrder calls).length : Int) := (Option.some.inj hi).symm
            subst hi'
            simp
          · rintro ⟨h0, hi⟩
            have hlt : i.toNat < ((prefixOrder calls) ++ [c.1]).length := by
              by_contra hcon
              rw [List.getElem?_eq_none (Nat.le_of_not_lt hcon)] at hi
              exact Option.noConfusion hi
            have hge : ¬ i.toNat < (prefixOrder calls).length := by
              intro hlt2
              rw [List.getElem?_append_left hlt2] at hi
              exact hp (List.getElem?_mem hi)
            simp only [List.length_append, List.length_singleton] at hlt
            congr 1
            omega
        · rw [GoMap.get?_set_ne _ _ _ _ hq, h.prefixIndexes_iff q i]
          constructor
          · rintro ⟨h0, hi⟩
            have hlt : i.toNat < (prefixOrder calls).length := by
              by_contra hcon
              rw [List.getElem?_eq_none (Nat.le_of_not_lt hcon)] at hi
              exact Option.noConfusion hi
            exact ⟨h0, by rw [List.getElem?_append_left hlt]; exact hi⟩
          · rintro ⟨h0, hi⟩
            refine ⟨h0, ?_⟩
            by_cases hlt : i.toNat < (prefixOrder calls).length
            · rw [List.getElem?_append_left hlt] at hi; exact hi
            · exfalso
              rw [List.getElem?_append_right (Nat.le_of_not_lt hlt)] at hi
              have := List.getElem?_mem hi
              simp at this
              exact hq this

theorem addKeys_built (rm : GoString → Option SiblingSet) (calls : List (GoString × GoString)) :
    ∃ s, addKeys calls (NewSiblingSetMergeIterator rm) = .ok s ∧ Built rm calls s := by
  induction calls using List.reverseRecOn with
  | nil => exact ⟨_, rfl, Built_new rm⟩
  | append_singleton calls c ih =>
    obtain ⟨s, hs, hb⟩ := ih
    obtain ⟨s', hs', hb'⟩ := Built_step rm calls s c hb
    refine ⟨s', ?_, hb'⟩
    unfold addKeys at hs ⊢
    rw [List.map_append, merge_run_append, hs]
    simp [run, step, hs']

/-! ## The results of successive calls of `Next` -/

theorem merge_nextResults_done (n : Nat) (s : SiblingSetMergeIterator SiblingSet)
    (h0 : 0 ≤ s.currentPrefixIndex) (h : (s.keys.length : Int) ≤ s.currentPrefixIndex) :
    nextResults n s = .ok (List.replicate n false) := by
  induction n with
  | zero => rfl
  | succ n ih =>
    simp only [nextResults, merge_Next_done s h0 h, ih]
    rfl

theorem merge_nextResults_from (n : Nat) : ∀ (s : SiblingSetMergeIterator SiblingSet) (i m : Nat),
    s.prefixes.length = s.keys.length → (∀ g ∈ s.keys, g ≠ []) →
    i < s.keys.length → s.currentPrefixIndex = (i : Int) → s.currentKeyIndex + 1 = (m : Int) →
    nextResults n s = .ok
      (List.replicate (min n (restFrom s.prefixes s.keys i m).length) true ++
        List.replicate (n - (restFrom s.prefixes s.keys i m).length) false) := by
  induction n with
  | zero => intro s i m _ _ _ _ _; simp [nextResults]
  | succ n ih =>
    intro s i m hlen hne hi hp hk
    have hip : i < s.prefixes.length := hlen ▸ hi
    by_cases hm : m < (s.keys.get ⟨i, hi⟩).length
    · have hN := merge_Next_stay s i m hi hp hk hm
      have hrest := restFrom_stay s.prefixes s.keys i m hip hi hm
      have hrec := ih ({ s with currentKeyIndex := (m : Int) } : SiblingSetMergeIterator SiblingSet)
        i (m + 1) hlen hne hi hp (by simp)
      simp only [nextResults, hN, hrec, hrest, List.length_cons, Nat.succ_min_succ,
        List.replicate_succ, Nat.succ_sub_succ]
      rfl
    · have hm' : (s.keys.get ⟨i, hi⟩).length ≤ m := Nat.le_of_not_lt hm
      have hN := merge_Next_move s i m hi hp hk hm'
      have hrest := restFrom_move s.prefixes s.keys i m hi hm'
      by_cases hi1 : i + 1 < s.keys.length
      · have hip1 : i + 1 < s.prefixes.length := hlen ▸ hi1
        have hg : s.keys.get ⟨i + 1, hi1⟩ ≠ [] := hne _ (List.get_mem _ _ _)
        have hpos : 0 < (s.keys.get ⟨i + 1, hi1⟩).length := List.length_pos.2 hg
        have hd : s.keys.getD (i + 1) [] = s.keys.get ⟨i + 1, hi1⟩ := by
          simp [List.getD_eq_getElem?_getD, List.getElem?_eq_getElem hi1]
        rw [hd] at hN
        simp only [hpos, decide_True] at hN
        rw [hrest, flatten_drop _ _ _ hip1 hi1,
          restFrom_stay s.prefixes s.keys (i + 1) 0 hip1 hi1 hpos]
        have hrec := ih ({ s with currentPrefixIndex := (i : Int) + 1, currentKeyIndex := 0 } :
            SiblingSetMergeIterator SiblingSet)
          (i + 1) 1 hlen hne hi1 (by simp) (by simp)
        simp only [nextResults, hN, hrec, List.length_cons, Nat.succ_min_succ,
          List.replicate_succ, Nat.succ_sub_succ]
        rfl
      · have hd : s.keys.getD (i + 1) [] = [] := by
          simp [List.getD_eq_getElem?_getD, List.getElem?_eq_none (Nat.le_of_not_lt hi1)]
        rw [hd] at hN
        have hdrop : s.keys.drop (i + 1) = [] := List.drop_eq_nil_of_le (Nat.le_of_not_lt hi1)
        have hdone := merge_nextResults_done n
          ({ s with currentPrefixIndex := (i : Int) + 1, currentKeyIndex := 0 } :
            SiblingSetMergeIterator SiblingSet)
          (by show (0 : Int) ≤ (i : Int) + 1; omega)
          (by show (s.keys.length : Int) ≤ (i : Int) + 1; omega)
        rw [hrest, hdrop, flatten_nil_right]
        simp only [nextResults, hN, hdone, List.length_nil, Nat.lt_irrefl, decide_False]
        simp [List.replicate_succ]

theorem merge_nextResults_fresh (s : SiblingSetMergeIterator SiblingSet)
    (hlen : s.prefixes.length = s.keys.length) (hne : ∀ g ∈ s.keys, g ≠ [])
    (hp : s.currentPrefixIndex = -1) (hk : s.currentKeyIndex = -1) (n : Nat) :
    nextResults n s = .ok
      (List.replicate (min n (flatten s.prefixes s.keys).length) true ++
        List.replicate (n - (flatten s.prefixes s.keys).length) false) := by
  cases n with
  | zero => simp [nextResults]
  | succ n =>
    have hneg : s.currentPrefixIndex < 0 := by omega
    have hfresh := merge_Next_fresh s hneg
    have hstep : nextResults (n + 1) s = nextResults (n + 1)
        ({ s with currentPrefixIndex := 0 } : SiblingSetMergeIterator SiblingSet) := by
      simp only [nextResults, hfresh]
    rw [hstep]
    by_cases h0 : 0 < s.keys.length
    · have h0p : 0 < s.prefixes.length := hlen ▸ h0
      have hfl : flatten s.prefixes s.keys = restFrom s.prefixes s.keys 0 0 := by
        have := flatten_drop s.prefixes s.keys 0 h0p h0
        simpa using this
      rw [hfl]
      exact merge_nextResults_from _
        ({ s with currentPrefixIndex := 0 } : SiblingSetMergeIterator SiblingSet)
        0 0 hlen hne h0 rfl (by simp [hk])
    · have hnil : s.keys = [] := List.length_eq_zero.1 (by omega)
      have hdone := merge_nextResults_done (n + 1)
        ({ s with currentPrefixIndex := 0 } : SiblingSetMergeIterator SiblingSet)
        (by simp) (by simp [hnil])
      rw [hdone, hnil, flatten_nil_right]
      simp

/-! ## The traversal of a built iterator -/

theorem arrange_perm (sorted : Bool) (g : List GoString) : (arrange sorted g).Perm g := by
  cases sorted with
  | false => exact List.Perm.refl _
  | true => exact List.perm_insertionSort _ g

theorem mem_arrange (sorted : Bool) (g : List GoString) (k : GoString) :
    k ∈ arrange sorted g ↔ k ∈ g :=
  (arrange_perm sorted g).mem_iff

theorem flatten_map (ps : List GoString) (g : GoString → List GoString) :
    flatten ps (ps.map g) = ps.flatMap fun p => (g p).map fun k => (p, k) := by
  induction ps with
  | nil => rfl
  | cons p ps ih => rw [List.map_cons, flatten_cons, ih, List.flatMap_cons]

theorem prepared_keys (sorted : Bool) (s : SiblingSetMergeIterator SiblingSet) :
    (prepared sorted s).keys = s.keys.map (arrange sorted) := by
  cases sorted with
  | false =>
    have : arrange false = id := funext fun g => rfl
    simp [prepared, this]
  | true =>
    simp only [prepared, arrange, if_true, SortKeys]
    rfl

theorem prepared_fields (sorted : Bool) (s : SiblingSetMergeIterator SiblingSet) :
    (prepared sorted s).prefixes = s.prefixes ∧
    (prepared sorted s).currentPrefixIndex = s.currentPrefixIndex ∧
    (prepared sorted s).currentKeyIndex = s.currentKeyIndex ∧
    (prepared sorted s).readMerger = s.readMerger := by
  cases sorted with
  | false => exact ⟨rfl, rfl, rfl, rfl⟩
  | true => exact ⟨rfl, rfl, rfl, rfl⟩

theorem Built_flatten (rm : GoString → Option SiblingSet) (calls : List (GoString × GoString))
    (s : SiblingSetMergeIterator SiblingSet) (h : Built rm calls s) (sorted : Bool) :
    flatten (prepared sorted s).prefixes (prepared sorted s).keys = traversal sorted calls := by
  rw [prepared_keys, (prepared_fields sorted s).1, h.prefixes_eq, h.keys_eq, List.map_map,
    flatten_map]
  rfl

theorem Built_prepared_wf (rm : GoString → Option SiblingSet) (calls : List (GoString × GoString))
    (s : SiblingSetMergeIterator SiblingSet) (h : Built rm calls s) (sorted : Bool) :
    (prepared sorted s).prefixes.length = (prepared sorted s).keys.length ∧
    (∀ g ∈ (prepared sorted s).keys, g ≠ []) := by
  rw [prepared_keys, (prepared_fields sorted s).1, h.prefixes_eq, h.keys_eq]
  refine ⟨by simp, ?_⟩
  intro g hg
  simp only [List.map_map, List.mem_map, Function.comp] at hg
  obtain ⟨p, hp, rfl⟩ := hg
  intro hnil
  have hperm := arrange_perm sorted (groupOf calls p)
  rw [hnil] at hperm
  exact groupOf_ne_nil calls p hp hperm.symm.eq_nil

theorem Built_drain (rm : GoString → Option SiblingSet) (calls : List (GoString × GoString))
    (s : SiblingSetMergeIterator SiblingSet) (h : Built rm calls s) (sorted : Bool) (extra : Nat) :
    drain ((traversal sorted calls).length + 1 + extra) (prepared sorted s)
      = .ok (some ((traversal sorted calls).map yielded)) := by
  have hwf := Built_prepared_wf rm calls s h sorted
  have hf := prepared_fields sorted s
  have := merge_drain_fresh (prepared sorted s) hwf.1 hwf.2
    (by rw [hf.2.1, h.prefixIndex_eq]) (by rw [hf.2.2.1, h.keyIndex_eq]) extra
  rw [Built_flatten rm calls s h sorted] at this
  exact this

theorem Built_nextResults (rm : GoString → Option SiblingSet) (calls : List (GoString × GoString))
    (s : SiblingSetMergeIterator SiblingSet) (h : Built rm calls s) (sorted : Bool) (n : Nat) :
    nextResults n (prepared sorted s) = .ok
      (List.replicate (min n (traversal sorted calls).length) true ++
        List.replicate (n - (traversal sorted calls).length) false) := by
  have hwf := Built_prepared_wf rm calls s h sorted
  have hf := prepared_fields sorted s
  have := merge_nextResults_fresh (prepared sorted s) hwf.1 hwf.2
    (by rw [hf.2.1, h.prefixIndex_eq]) (by rw [hf.2.2.1, h.keyIndex_eq]) n
  rw [Built_flatten rm calls s h sorted] at this
  exact this

theorem mem_groupOf (calls : List (GoString × GoString)) (p k : GoString) :
    k ∈ groupOf calls p ↔ (p, k) ∈ accepted calls := by
  unfold groupOf
  simp only [List.mem_map, List.mem_filter, decide_eq_true_eq]
  constructor
  · rintro ⟨c, ⟨hc, hcp⟩, hck⟩
    have : c = (p, k) := Prod.ext hcp hck
    exact this ▸ hc
  · intro h
    exact ⟨(p, k), ⟨h, rfl⟩, rfl⟩

theorem mem_traversal (sorted : Bool) (calls : List (GoString × GoString)) (p k : GoString) :
    (p, k) ∈ traversal sorted calls ↔ (p, k) ∈ accepted calls := by
  unfold traversal
  simp only [List.mem_flatMap, List.mem_map, Prod.mk.injEq]
  constructor
  · rintro ⟨q, _, k', hk', rfl, rfl⟩
    exact (mem_groupOf calls q k').1 ((mem_arrange sorted _ _).1 hk')
  · intro h
    refine ⟨p, ?_, k, ?_, rfl, rfl⟩
    · rw [mem_prefixOrder]
      exact List.mem_map.2 ⟨(p, k), h, rfl⟩
    · exact (mem_arrange sorted _ _).2 ((mem_groupOf calls p k).2 h)

theorem nodup_keys_accepted (calls : List (GoString × GoString)) :
    ((accepted calls).map Prod.snd).Nodup :=
  nodup_map_firstBy Prod.snd calls

theorem nodup_groupOf (calls : List (GoString × GoString)) (p : GoString) :
    (groupOf calls p).Nodup :=
  (nodup_keys_accepted calls).sublist ((List.filter_sublist _).map Prod.snd)

theorem nodup_arrange_groupOf (sorted : Bool) (calls : List (GoString × GoString)) (p : GoString) :
    (arrange sorted (groupOf calls p)).Nodup :=
  (arrange_perm sorted _).nodup_iff.2 (nodup_groupOf calls p)

theorem map_snd_traversal (sorted : Bool) (calls : List (GoString × GoString)) :
    (traversal sorted calls).map Prod.snd
      = (prefixOrder calls).flatMap fun p => arrange sorted (groupOf calls p) := by
  unfold traversal
  rw [List.map_flatMap]
  congr 1
  funext p
  simp [Function.comp]

theorem map_fst_traversal (sorted : Bool) (calls : List (GoString × GoString)) :
    (traversal sorted calls).map Prod.fst
      = (prefixOrder calls).flatMap fun p => List.replicate (groupOf calls p).length p := by
  unfold traversal
  rw [List.map_flatMap]
  congr 1
  funext p
  rw [List.map_map, ← (arrange_perm sorted (groupOf calls p)).length_eq]
  exact List.eq_replicate_iff.2 ⟨by simp, by simp⟩

theorem nodup_keys_traversal (sorted : Bool) (calls : List (GoString × GoString)) :
    ((traversal sorted calls).map Prod.snd).Nodup := by
  rw [map_snd_traversal, List.nodup_flatMap]
  refine ⟨fun p _ => nodup_arrange_groupOf sorted calls p, ?_⟩
  refine (nodup_prefixOrder calls).pairwise_of_forall_ne ?_
  intro p _ q _ hpq
  show List.Disjoint _ _
  intro k hkp hkq
  have h1 := (mem_groupOf calls p k).1 ((mem_arrange sorted _ _).1 hkp)
  have h2 := (mem_groupOf calls q k).1 ((mem_arrange sorted _ _).1 hkq)
  have := List.inj_on_of_nodup_map (nodup_keys_accepted calls) h1 h2 rfl
  exact hpq (Prod.mk.inj this).1

theorem mem_keys_traversal (sorted : Bool) (calls : List (GoString × GoString)) (k : GoString) :
    k ∈ (traversal sorted calls).map Prod.snd ↔ k ∈ calls.map Prod.snd := by
  rw [← mem_map_firstBy Prod.snd calls k]
  simp only [List.mem_map]
  constructor
  · rintro ⟨⟨p, k'⟩, h, rfl⟩
    exact ⟨(p, k'), (mem_traversal sorted calls p k').1 h, rfl⟩
  · rintro ⟨⟨p, k'⟩, h, rfl⟩
    exact ⟨(p, k'), (mem_traversal sorted calls p k').2 h, rfl⟩

theorem find?_of_mem_firstBy {α β : Type} [DecidableEq β] (f : α → β) (l : List α) (a : α)
    (h : a ∈ firstBy f l) : l.find? (fun b => f b = f a) = some a := by
  induction l with
  | nil => simp [firstBy] at h
  | cons d l ih =>
    simp only [firstBy, List.mem_cons, List.mem_filter] at h
    by_cases had : a = d
    · subst had
      simp
    · have h' := h.resolve_left had
      have hne : f d ≠ f a := by
        have := h'.2
        simp only [ne_eq, decide_not, Bool.not_eq_true', decide_eq_false_iff_not] at this
        exact fun hh => this hh.symm
      rw [List.find?_cons_of_neg _ (by simpa using hne)]
      exact ih h'.1

theorem length_traversal (sorted : Bool) (calls : List (GoString × GoString)) :
    (traversal sorted calls).length = ((calls.map Prod.snd).dedup).length := by
  have h1 : ((traversal sorted calls).map Prod.snd).Perm ((calls.map Prod.snd).dedup) := by
    rw [List.perm_ext_iff_of_nodup (nodup_keys_traversal sorted calls) (List.nodup_dedup _)]
    intro k
    rw [mem_keys_traversal, List.mem_dedup]
  have := h1.length_eq
  simpa using this

/-! ## Uniqueness, order and exhaustion of the traversal -/

theorem sortStrings_sorted (g : List GoString) : (sortStrings g).Sorted (· ≤ ·) :=
  List.sorted_insertionSort (· ≤ ·) g

theorem sortStrings_strict (g : List GoString) (h : g.Nodup) :
    (sortStrings g).Pairwise (· < ·) :=
  (sortStrings_sorted g).lt_of_le ((List.perm_insertionSort _ g).nodup_iff.2 h)

theorem traversal_sorted_pairwise (calls : List (GoString × GoString)) :
    (traversal true calls).Pairwise (fun a b => a.1 = b.1 → List.Lex (· < ·) a.2 b.2) := by
  unfold traversal
  rw [List.pairwise_flatMap]
  constructor
  · intro p _
    rw [List.pairwise_map]
    show List.Pairwise (fun a b : GoString => p = p → List.Lex (· < ·) a b)
      (sortStrings (groupOf calls p))
    exact (sortStrings_strict _ (nodup_groupOf calls p)).imp (fun h _ => h)
  · refine (nodup_prefixOrder calls).pairwise_of_forall_ne ?_
    intro p _ q _ hpq x hx y hy hxy
    obtain ⟨_, _, rfl⟩ := List.mem_map.1 hx
    obtain ⟨_, _, rfl⟩ := List.mem_map.1 hy
    exact absurd hxy hpq

/-- C1: after any sequence of `AddKey` calls on a fresh iterator, the consumer loop ends and
reads each distinct key of the sequence exactly once, and the prefix read with a key is the
prefix of the first `AddKey` call of that key (with or without `SortKeys`). -/
theorem merge_global_key_uniqueness (rm : GoString → Option SiblingSet)
    (calls : List (GoString × GoString)) (sorted : Bool) :
    ∃ s, addKeys calls (NewSiblingSetMergeIterator rm) = .ok s ∧
      (∀ extra, drain ((traversal sorted calls).length + 1 + extra) (prepared sorted s)
        = .ok (some ((traversal sorted calls).map yielded))) ∧
      ((traversal sorted calls).map Prod.snd).Nodup ∧
      (∀ k, k ∈ (traversal sorted calls).map Prod.snd ↔ k ∈ calls.map Prod.snd) ∧
      (∀ p k, (p, k) ∈ traversal sorted calls →
        calls.find? (fun c => c.2 = k) = some (p, k)) := by
  obtain ⟨s, hs, hb⟩ := addKeys_built rm calls
  refine ⟨s, hs, Built_drain rm calls s hb sorted, nodup_keys_traversal sorted calls,
    mem_keys_traversal sorted calls, ?_⟩
  intro p k h
  exact find?_of_mem_firstBy Prod.snd calls (p, k) ((mem_traversal sorted calls p k).1 h)

/-- The scenario of C1: `AddKey("p1","k")` then `AddKey("p2","k")` yields `("p1","k")` only. -/
theorem merge_global_key_uniqueness_example :
    Example.observe false Example.dupCalls 2 = .ok (some [(some [112, 49], some [107])]) ∧
    traversal false Example.dupCalls = [([112, 49], [107])] :=
  ⟨rfl, by decide⟩

/-- C2: after any sequence of `AddKey` calls on a fresh iterator followed by `SortKeys()`, the
consumer loop ends, and two pairs read one after the other with the same prefix have strictly
ascending keys in the lexicographic order on bytes; more generally, of any two pairs read
with the same prefix the earlier one has the smaller key. -/
theorem merge_sorted_traversal (rm : GoString → Option SiblingSet)
    (calls : List (GoString × GoString)) :
    ∃ s, addKeys calls (NewSiblingSetMergeIterator rm) = .ok s ∧
      (∀ extra, drain ((traversal true calls).length + 1 + extra) s.SortKeys
        = .ok (some ((traversal true calls).map yielded))) ∧
      (∀ i (h : i + 1 < (traversal true calls).length),
        ((traversal true calls).get ⟨i, Nat.lt_of_succ_lt h⟩).1
          = ((traversal true calls).get ⟨i + 1, h⟩).1 →
        List.Lex (· < ·) ((traversal true calls).get ⟨i, Nat.lt_of_succ_lt h⟩).2
          ((traversal true calls).get ⟨i + 1, h⟩).2) ∧
      (traversal true calls).Pairwise (fun a b => a.1 = b.1 → List.Lex (· < ·) a.2 b.2) := by
  obtain ⟨s, hs, hb⟩ := addKeys_built rm calls
  refine ⟨s, hs, Built_drain rm calls s hb true, ?_, traversal_sorted_pairwise calls⟩
  intro i h
  exact List.pairwise_iff_get.1 (traversal_sorted_pairwise calls)
    ⟨i, Nat.lt_of_succ_lt h⟩ ⟨i + 1, h⟩ (Nat.lt_succ_self i)

/-- The scenario of C2: `AddKey("site1","k2")`, `AddKey("site1","k1")`, `SortKeys()` yields
`(site1,k1)` then `(site1,k2)`. -/
theorem merge_sorted_traversal_example :
    Example.observe true Example.siteCalls 3
      = .ok (some [(some [115, 105, 116, 101, 49], some [107, 49]),
                   (some [115, 105, 116, 101, 49], some [107, 50])]) :=
  rfl

/-- C3: with or without `SortKeys`, the prefixes read by the traversal are one contiguous run
per prefix, and the runs come in the order in which the prefixes first received a key that was
not a duplicate: the prefixes of `prefixOrder calls` are pairwise distinct and each is read as
many times (at least once) as it has keys. -/
theorem merge_prefix_runs (rm : GoString → Option SiblingSet)
    (calls : List (GoString × GoString)) (sorted : Bool) :
    ∃ s, addKeys calls (NewSiblingSetMergeIterator rm) = .ok s ∧
      (∀ extra, drain ((traversal sorted calls).length + 1 + extra) (prepared sorted s)
        = .ok (some ((traversal sorted calls).map yielded))) ∧
      (traversal sorted calls).map Prod.fst
        = (prefixOrder calls).flatMap (fun p => List.replicate (groupOf calls p).length p) ∧
      (prefixOrder calls).Nodup ∧
      (∀ p ∈ prefixOrder calls, 0 < (groupOf calls p).length) ∧
      prefixOrder calls = firstBy id ((firstBy Prod.snd calls).map Prod.fst) := by
  obtain ⟨s, hs, hb⟩ := addKeys_built rm calls
  exact ⟨s, hs, Built_drain rm calls s hb sorted, map_fst_traversal sorted calls,
    nodup_prefixOrder calls,
    fun p hp => List.length_pos.2 (groupOf_ne_nil calls p hp), rfl⟩

/-- The scenario of C3: keys first added under `"b"` and then under `"a"` come out with all
`"b"` pairs before the `"a"` pair, sorted or not; the duplicate `AddKey("b","x")` is dropped. -/
theorem merge_prefix_runs_example :
    Example.observe false Example.baCalls 4
      = .ok (some [(some [98], some [121]), (some [98], some [122]), (some [97], some [120])]) ∧
    Example.observe true Example.baCalls 4
      = .ok (some [(some [98], some [121]), (some [98], some [122]), (some [97], some [120])]) ∧
    prefixOrder Example.baCalls = [[98], [97]] :=
  ⟨rfl, rfl, by decide⟩

/-- C4: when the `AddKey` calls made on a fresh iterator carry `n` distinct keys, the first `n`
calls of `Next` answer `true` and every later call answers `false`; on an iterator without
keys the first call answers `false`. -/
theorem merge_next_exhaustion (rm : GoString → Option SiblingSet)
    (calls : List (GoString × GoString)) (sorted : Bool) (m : Nat) :
    (∃ s, addKeys calls (NewSiblingSetMergeIterator rm) = .ok s ∧
      nextResults m (prepared sorted s) = .ok
        (List.replicate (min m ((calls.map Prod.snd).dedup).length) true ++
          List.replicate (m - ((calls.map Prod.snd).dedup).length) false)) ∧
    nextResults (m + 1) (NewSiblingSetMergeIterator rm) = .ok (List.replicate (m + 1) false) := by
  constructor
  · obtain ⟨s, hs, hb⟩ := addKeys_built rm calls
    refine ⟨s, hs, ?_⟩
    rw [← length_traversal sorted calls]
    exact Built_nextResults rm calls s hb sorted m
  · have := Built_nextResults rm [] _ (Built_new rm) false (m + 1)
    simpa [prepared, traversal, prefixOrder, accepted, firstBy] using this

/-- The scenario of C4: three distinct keys in four calls, five calls of `Next`. -/
theorem merge_next_exhaustion_example :
    (match addKeys Example.baCalls (NewSiblingSetMergeIterator Example.rm) with
      | .error e => Except.error e
      | .ok s => nextResults 5 s) = Except.ok [true, true, true, false, false] :=
  rfl

/-! ## The effect of single calls on arbitrary states -/

theorem index_error_of_not_lt {α : Type} (xs : List α) (i : Int)
    (h : ¬ (0 ≤ i ∧ i.toNat < xs.length)) : index xs i = .error .indexOutOfRange := by
  unfold index
  split
  · rename_i h0
    have : xs.length ≤ i.toNat := Nat.le_of_not_lt (fun hh => h ⟨h0, hh⟩)
    rw [List.getElem?_eq_none this]
  · rfl

theorem index_of_nonneg {α : Type} (xs : List α) (i : Int) (h0 : 0 ≤ i)
    (h : i.toNat < xs.length) : index xs i = .ok (xs.get ⟨i.toNat, h⟩) := by
  simp [index, h0, List.getElem?_eq_getElem h]

/-- The three ways in which `AddKey` returns. -/
theorem merge_AddKey_cases (s s' : SiblingSetMergeIterator SiblingSet) (p k : GoString)
    (h : s.AddKey p k = .ok s') :
    ((s.keySet.get? k).isSome = true ∧ s' = s) ∨
    ((s.keySet.get? k).isSome = false ∧ ∃ n : Nat, n < s.keys.length ∧
      s.prefixIndexes.get? p = some (n : Int) ∧
      s' = { s with
        keySet := s.keySet.set k true
        keys := s.keys.set n (s.keys.getD n [] ++ [k]) }) ∨
    ((s.keySet.get? k).isSome = false ∧ s.prefixIndexes.get? p = none ∧
      s' = { s with
        keySet := s.keySet.set k true
        prefixIndexes := s.prefixIndexes.set p (s.keys.length : Int)
        keys := s.keys ++ [[k]]
        prefixes := s.prefixes ++ [p] }) := by
  cases hdup : (s.keySet.get? k).isSome with
  | true =>
    rw [merge_AddKey_dup s p k hdup] at h
    exact Or.inl ⟨rfl, (Except.ok.inj h).symm⟩
  | false =>
    right
    cases hget : s.prefixIndexes.get? p with
    | none =>
      rw [merge_AddKey_new s p k hdup hget] at h
      exact Or.inr ⟨rfl, rfl, (Except.ok.inj h).symm⟩
    | some i =>
      left
      by_cases hi : 0 ≤ i ∧ i.toNat < s.keys.length
      · have hcast : ((i.toNat : Nat) : Int) = i := Int.toNat_of_nonneg hi.1
        have hget' : s.prefixIndexes.get? p = some ((i.toNat : Nat) : Int) := by rw [hcast, hget]
        rw [merge_AddKey_old s p k i.toNat hdup hget' hi.2] at h
        exact ⟨rfl, i.toNat, hi.2, congrArg some hcast.symm, (Except.ok.inj h).symm⟩
      · exfalso
        have herr := index_error_of_not_lt s.keys i hi
        simp only [AddKey, hdup, Bool.false_eq_true, if_false, hget, Option.isSome_some, if_true,
          Option.getD_some, herr] at h
        exact Except.noConfusion h

theorem merge_AddKey_effect (s s' : SiblingSetMergeIterator SiblingSet) (p k : GoString)
    (h : s.AddKey p k = .ok s') :
    s'.readMerger = s.readMerger ∧ s'.currentPrefixIndex = s.currentPrefixIndex ∧
    s'.currentKeyIndex = s.currentKeyIndex ∧
    (s'.keySet.get? k).isSome = true ∧
    (∀ k', (s.keySet.get? k').isSome = true → (s'.keySet.get? k').isSome = true) ∧
    (∀ i, (s.keys.getD i []).length ≤ (s'.keys.getD i []).length) := by
  have hset : ∀ k', (s.keySet.get? k').isSome = true →
      ((s.keySet.set k true).get? k').isSome = true := by
    intro k' hk'
    by_cases hkk : k' = k
    · rw [hkk, GoMap.get?_set_self]; rfl
    · rw [GoMap.get?_set_ne _ _ _ _ hkk]; exact hk'
  have hself : ((s.keySet.set k true).get? k).isSome = true := by
    rw [GoMap.get?_set_self]; rfl
  rcases merge_AddKey_cases s s' p k h with ⟨hdup, rfl⟩ | ⟨_, n, hn, _, rfl⟩ | ⟨_, _, rfl⟩
  · exact ⟨rfl, rfl, rfl, hdup, fun _ h => h, fun _ => Nat.le_refl _⟩
  · refine ⟨rfl, rfl, rfl, hself, hset, ?_⟩
    intro i
    show _ ≤ ((s.keys.set n (s.keys.getD n [] ++ [k])).getD i []).length
    simp only [List.getD_eq_getElem?_getD, List.getElem?_set]
    by_cases hni : n = i
    · subst hni
      simp [hn]
    · simp [hni]
  · refine ⟨rfl, rfl, rfl, hself, hset, ?_⟩
    intro i
    show _ ≤ ((s.keys ++ [[k]]).getD i []).length
    simp only [List.getD_eq_getElem?_getD]
    by_cases hi : i < s.keys.length
    · rw [List.getElem?_append_left hi]
    · rw [List.getElem?_eq_none (Nat.le_of_not_lt hi)]
      exact Nat.zero_le _

/-- What a call of `Next` does to a state whose key index is at least `-1`. -/
theorem merge_Next_effect (s : SiblingSetMergeIterator SiblingSet) (hk : -1 ≤ s.currentKeyIndex) :
    ∃ b s', s.Next = .ok (b, s') ∧ s'.readMerger = s.readMerger ∧ s'.keys = s.keys ∧
      s'.keySet = s.keySet ∧ -1 ≤ s'.currentKeyIndex ∧ (b = true → ValidCursor s') := by
  have key : ∀ t : SiblingSetMergeIterator SiblingSet, 0 ≤ t.currentPrefixIndex →
      -1 ≤ t.currentKeyIndex →
      ∃ b s', t.Next = .ok (b, s') ∧ s'.readMerger = t.readMerger ∧ s'.keys = t.keys ∧
        s'.keySet = t.keySet ∧ -1 ≤ s'.currentKeyIndex ∧ (b = true → ValidCursor s') := by
    intro t hp hk
    by_cases hlen : (t.keys.length : Int) ≤ t.currentPrefixIndex
    · exact ⟨false, t, merge_Next_done t hp hlen, rfl, rfl, rfl, hk,
        fun h => Bool.noConfusion h⟩
    · have hi : t.currentPrefixIndex.toNat < t.keys.length := by omega
      have hpc : t.currentPrefixIndex = ((t.currentPrefixIndex.toNat : Nat) : Int) :=
        (Int.toNat_of_nonneg hp).symm
      have hkc : t.currentKeyIndex + 1 = (((t.currentKeyIndex + 1).toNat : Nat) : Int) :=
        (Int.toNat_of_nonneg (by omega)).symm
      have hd : t.keys.getD t.currentPrefixIndex.toNat [] = t.keys.get ⟨_, hi⟩ := by
        simp [List.getD_eq_getElem?_getD, List.getElem?_eq_getElem hi]
      by_cases hm : (t.currentKeyIndex + 1).toNat < (t.keys.get ⟨_, hi⟩).length
      · refine ⟨true, _, merge_Next_stay t _ _ hi hpc hkc hm, rfl, rfl, rfl, ?_, ?_⟩
        · show (-1 : Int) ≤ (((t.currentKeyIndex + 1).toNat : Nat) : Int)
          omega
        · intro _
          refine ⟨hp, ?_, ?_⟩
          · show (0 : Int) ≤ (((t.currentKeyIndex + 1).toNat : Nat) : Int)
            omega
          · show (((t.currentKeyIndex + 1).toNat : Nat) : Int)
              < ((t.keys.getD t.currentPrefixIndex.toNat []).length : Int)
            rw [hd]
            omega
      · refine ⟨_, _, merge_Next_move t _ _ hi hpc hkc (Nat.le_of_not_lt hm), rfl, rfl, rfl,
          ?_, ?_⟩
        · show (-1 : Int) ≤ 0
          omega
        · intro hb
          have hpos : 0 < (t.keys.getD (t.currentPrefixIndex.toNat + 1) []).length := by
            simpa using hb
          refine ⟨?_, ?_, ?_⟩
          · show (0 : Int) ≤ ((t.currentPrefixIndex.toNat : Nat) : Int) + 1
            omega
          · show (0 : Int) ≤ 0
            omega
          · show (0 : Int) < ((t.keys.getD
              (((t.currentPrefixIndex.toNat : Nat) : Int) + 1).toNat []).length : Int)
            have : (((t.currentPrefixIndex.toNat : Nat) : Int) + 1).toNat
                = t.currentPrefixIndex.toNat + 1 := by omega
            rw [this]
            omega
  by_cases hneg : s.currentPrefixIndex < 0
  · rw [merge_Next_fresh s hneg]
    exact key ({ s with currentPrefixIndex := 0 } : SiblingSetMergeIterator SiblingSet)
      (Int.le_refl 0) hk
  · exact key s (by omega) hk

theorem merge_key_value_of_valid (s : SiblingSetMergeIterator SiblingSet) (h : ValidCursor s) :
    ∃ k, index (s.keys.getD s.currentPrefixIndex.toNat []) s.currentKeyIndex = .ok k ∧
      s.Key = .ok (some k) ∧ s.Value = .ok (s.readMerger k) := by
  obtain ⟨hp, hk, hlt⟩ := h
  have hi : s.currentPrefixIndex.toNat < s.keys.length := by
    by_contra hcon
    rw [List.getD_eq_getElem?_getD, List.getElem?_eq_none (Nat.le_of_not_lt hcon)] at hlt
    simp at hlt
    omega
  have hd : s.keys.getD s.currentPrefixIndex.toNat [] = s.keys.get ⟨_, hi⟩ := by
    simp [List.getD_eq_getElem?_getD, List.getElem?_eq_getElem hi]
  rw [hd] at hlt ⊢
  have hj : s.currentKeyIndex.toNat < (s.keys.get ⟨_, hi⟩).length := by omega
  have hpc : s.currentPrefixIndex = ((s.currentPrefixIndex.toNat : Nat) : Int) :=
    (Int.toNat_of_nonneg hp).symm
  have hkc : s.currentKeyIndex = ((s.currentKeyIndex.toNat : Nat) : Int) :=
    (Int.toNat_of_nonneg hk).symm
  have hg : ¬ s.noCurrentGroup := by
    unfold noCurrentGroup
    omega
  have h2 : ¬ (s.currentKeyIndex ≥ ((s.keys.get ⟨_, hi⟩).length : Int)) := by omega
  have hidx1 : index s.keys s.currentPrefixIndex = .ok (s.keys.get ⟨_, hi⟩) := by
    exact index_of_nonneg s.keys _ hp hi
  have hidx2 : index (s.keys.get ⟨_, hi⟩) s.currentKeyIndex
      = .ok ((s.keys.get ⟨_, hi⟩).get ⟨_, hj⟩) := by
    exact index_of_nonneg _ _ hk hj
  refine ⟨_, hidx2, ?_, ?_⟩
  · simp only [Key, hg, if_false, hidx1, h2, hidx2]
  · simp only [Value, hg, if_false, hidx1, h2, hidx2]

/-! ## Values, duplicate insertions and the error state -/

theorem merge_SortKeys_getD_length (s : SiblingSetMergeIterator SiblingSet) (i : Nat) :
    (s.SortKeys.keys.getD i []).length = (s.keys.getD i []).length := by
  show ((s.keys.map sortStrings).getD i []).length = _
  simp only [List.getD_eq_getElem?_getD, List.getElem?_map]
  cases s.keys[i]? with
  | none => rfl
  | some g => simp [sortStrings, List.length_insertionSort]

theorem merge_step_effect (s s' : SiblingSetMergeIterator SiblingSet) (op : Op)
    (hk : -1 ≤ s.currentKeyIndex) (h : step s op = .ok s') :
    s'.readMerger = s.readMerger ∧ -1 ≤ s'.currentKeyIndex ∧
    (∀ k, (s.keySet.get? k).isSome = true → (s'.keySet.get? k).isSome = true) ∧
    (op ≠ Op.next → ValidCursor s → ValidCursor s') := by
  cases op with
  | addKey p k =>
    obtain ⟨h1, h2, h3, _, h5, h6⟩ := merge_AddKey_effect s s' p k h
    refine ⟨h1, by rw [h3]; exact hk, h5, ?_⟩
    rintro _ ⟨v1, v2, v3⟩
    refine ⟨by rw [h2]; exact v1, by rw [h3]; exact v2, ?_⟩
    rw [h2, h3]
    have := h6 s.currentPrefixIndex.toNat
    omega
  | sortKeys =>
    have := Except.ok.inj h
    subst this
    refine ⟨rfl, hk, fun _ h => h, ?_⟩
    rintro _ ⟨v1, v2, v3⟩
    refine ⟨v1, v2, ?_⟩
    show s.currentKeyIndex < ((s.SortKeys.keys.getD s.currentPrefixIndex.toNat []).length : Int)
    rw [merge_SortKeys_getD_length]
    exact v3
  | next =>
    obtain ⟨b, t, hN, h1, _, h3, h4, _⟩ := merge_Next_effect s hk
    simp only [step, hN] at h
    have := Except.ok.inj h
    subst this
    exact ⟨h1, h4, fun k hk' => by rw [h3]; exact hk', fun hne => absurd rfl hne⟩
  | release =>
    have := Except.ok.inj h
    subst this
    exact ⟨rfl, hk, fun _ h => h, fun _ h => h⟩

theorem merge_run_effect (ops : List Op) : ∀ (s s' : SiblingSetMergeIterator SiblingSet),
    -1 ≤ s.currentKeyIndex → run ops s = .ok s' →
    s'.readMerger = s.readMerger ∧ -1 ≤ s'.currentKeyIndex ∧
    (∀ k, (s.keySet.get? k).isSome = true → (s'.keySet.get? k).isSome = true) ∧
    ((∀ op ∈ ops, op ≠ Op.next) → ValidCursor s → ValidCursor s') := by
  induction ops with
  | nil =>
    intro s s' hk h
    have := Except.ok.inj h
    subst this
    exact ⟨rfl, hk, fun _ h => h, fun _ h => h⟩
  | cons op ops ih =>
    intro s s' hk h
    simp only [run] at h
    cases hs : step s op with
    | error e => rw [hs] at h; exact Except.noConfusion h
    | ok s1 =>
      rw [hs] at h
      obtain ⟨a1, a2, a3, a4⟩ := merge_step_effect s s1 op hk hs
      obtain ⟨b1, b2, b3, b4⟩ := ih s1 s' a2 h
      refine ⟨b1.trans a1, b2, fun k hk' => b3 k (a3 k hk'), ?_⟩
      intro hno hv
      exact b4 (fun o ho => hno o (List.mem_cons_of_mem _ ho))
        (a4 (hno op (List.mem_cons_self _ _)) hv)

theorem merge_run_append_ok (ops1 ops2 : List Op) (s s' : SiblingSetMergeIterator SiblingSet)
    (h : run (ops1 ++ ops2) s = .ok s') : ∃ s1, run ops1 s = .ok s1 ∧ run ops2 s1 = .ok s' := by
  rw [merge_run_append] at h
  cases h1 : run ops1 s with
  | error e => rw [h1] at h; exact Except.noConfusion h
  | ok s1 => rw [h1] at h; exact ⟨s1, rfl, h⟩

theorem merge_New_keyIndex (rm : GoString → Option SiblingSet) :
    -1 ≤ (NewSiblingSetMergeIterator rm).currentKeyIndex :=
  Int.le_refl _

theorem merge_value_of_key (t : SiblingSetMergeIterator SiblingSet) (k : GoString)
    (h : t.Key = .ok (some k)) : t.Value = .ok (t.readMerger k) := by
  unfold Key at h
  unfold Value
  split at h
  · exact Option.noConfusion (Except.ok.inj h)
  · rename_i hg
    rw [if_neg hg]
    split at h
    · exact Except.noConfusion h
    · rename_i group hgroup
      split at h
      · exact Option.noConfusion (Except.ok.inj h)
      · rename_i hlt
        simp only [hlt, if_false]
        split at h
        · exact Except.noConfusion h
        · rename_i k' hk'
          have : k' = k := Option.some.inj (Except.ok.inj h)
          rw [this]

/-- C5: in every state in which the last call of `Next` answered `true` (whatever `AddKey`,
`SortKeys` and `Release` calls came after it), `Key()` returns the key at the cursor and
`Value()` is `readMerger.Get` of that key, for any read merger; and in any state at all, when
`Key()` returns the bytes of `k`, `Value()` is `readMerger.Get(k)`. -/
theorem merge_value_through_read_merger (rm : GoString → Option SiblingSet)
    (ops0 ops1 : List Op) (s s' s'' : SiblingSetMergeIterator SiblingSet)
    (h0 : run ops0 (NewSiblingSetMergeIterator rm) = .ok s)
    (hnext : s.Next = .ok (true, s'))
    (hno : ∀ op ∈ ops1, op ≠ Op.next) (h1 : run ops1 s' = .ok s'') :
    (∃ k, index (s''.keys.getD s''.currentPrefixIndex.toNat []) s''.currentKeyIndex = .ok k ∧
      s''.Key = .ok (some k) ∧ s''.Value = .ok (rm k)) ∧
    (∀ (t : SiblingSetMergeIterator SiblingSet) (k : GoString),
      t.Key = .ok (some k) → t.Value = .ok (t.readMerger k)) := by
  refine ⟨?_, merge_value_of_key⟩
  obtain ⟨a1, a2, _, _⟩ := merge_run_effect ops0 _ s (merge_New_keyIndex rm) h0
  obtain ⟨b, t, hN, b1, _, _, b4, b5⟩ := merge_Next_effect s a2
  rw [hN] at hnext
  have hbt := Prod.mk.inj (Except.ok.inj hnext)
  have hb : b = true := hbt.1
  have ht : t = s' := hbt.2
  subst ht
  obtain ⟨c1, _, _, c4⟩ := merge_run_effect ops1 t s'' b4 h1
  obtain ⟨k, hk1, hk2, hk3⟩ := merge_key_value_of_valid s'' (c4 hno (b5 hb))
  refine ⟨k, hk1, hk2, ?_⟩
  rw [hk3, c1, b1, a1]
  rfl

/-- Witness of C5: one key added, `Next`, a second key added, then `Value()`. -/
theorem merge_value_through_read_merger_witness :
    (∃ k, index ((Example.afterOps [Op.addKey [112] [107, 50], Op.sortKeys]
          (Example.afterNext (Example.afterOps [Op.addKey [112] [107, 49]]
            (NewSiblingSetMergeIterator Example.lengthMerger)))).keys.getD
        (Example.afterOps [Op.addKey [112] [107, 50], Op.sortKeys]
          (Example.afterNext (Example.afterOps [Op.addKey [112] [107, 49]]
            (NewSiblingSetMergeIterator Example.lengthMerger)))).currentPrefixIndex.toNat [])
        (Example.afterOps [Op.addKey [112] [107, 50], Op.sortKeys]
          (Example.afterNext (Example.afterOps [Op.addKey [112] [107, 49]]
            (NewSiblingSetMergeIterator Example.lengthMerger)))).currentKeyIndex = .ok k ∧
      (Example.afterOps [Op.addKey [112] [107, 50], Op.sortKeys]
        (Example.afterNext (Example.afterOps [Op.addKey [112] [107, 49]]
          (NewSiblingSetMergeIterator Example.lengthMerger)))).Key = .ok (some k) ∧
      (Example.afterOps [Op.addKey [112] [107, 50], Op.sortKeys]
        (Example.afterNext (Example.afterOps [Op.addKey [112] [107, 49]]
          (NewSiblingSetMergeIterator Example.lengthMerger)))).Value
        = .ok (Example.lengthMerger k)) ∧
    (∀ (t : SiblingSetMergeIterator Nat) (k : GoString),
      t.Key = .ok (some k) → t.Value = .ok (t.readMerger k)) :=
  merge_value_through_read_merger Example.lengthMerger [Op.addKey [112] [107, 49]]
    [Op.addKey [112] [107, 50], Op.sortKeys]
    (Example.afterOps [Op.addKey [112] [107, 49]]
      (NewSiblingSetMergeIterator Example.lengthMerger))
    (Example.afterNext (Example.afterOps [Op.addKey [112] [107, 49]]
      (NewSiblingSetMergeIterator Example.lengthMerger)))
    _ rfl rfl (by decide) rfl

/-- The scenario of C5 evaluated: the value read is the merger's answer for the key read. -/
theorem merge_value_through_read_merger_example :
    (Example.afterNext (Example.afterOps [Op.addKey [112] [107, 49]]
      (NewSiblingSetMergeIterator Example.lengthMerger))).Key = .ok (some [107, 49]) ∧
    (Example.afterNext (Example.afterOps [Op.addKey [112] [107, 49]]
      (NewSiblingSetMergeIterator Example.lengthMerger))).Value = .ok (some 2) :=
  ⟨rfl, rfl⟩

/-- C6: once a key has been added by `AddKey` (under any prefix, whatever calls followed), a
call `AddKey(prefix, key)` with any prefix returns with the whole iterator state unchanged. -/
theorem merge_duplicate_AddKey_dropped (rm : GoString → Option SiblingSet)
    (ops1 ops2 : List Op) (p0 key : GoString) (s : SiblingSetMergeIterator SiblingSet)
    (h : run (ops1 ++ Op.addKey p0 key :: ops2) (NewSiblingSetMergeIterator rm) = .ok s)
    (p : GoString) : s.AddKey p key = .ok s := by
  obtain ⟨s1, h1, h2⟩ := merge_run_append_ok ops1 _ _ s h
  obtain ⟨_, a2, _, _⟩ := merge_run_effect ops1 _ s1 (merge_New_keyIndex rm) h1
  simp only [run] at h2
  cases hs : step s1 (Op.addKey p0 key) with
  | error e => rw [hs] at h2; exact Except.noConfusion h2
  | ok s2 =>
    rw [hs] at h2
    obtain ⟨_, _, b3, b4, _, _⟩ := merge_AddKey_effect s1 s2 p0 key hs
    obtain ⟨_, _, c3, _⟩ := merge_run_effect ops2 s2 s (by rw [b3]; exact a2) h2
    exact merge_AddKey_dup s p key (c3 key b4)

/-- Witness of C6: `AddKey("p1","k")` then `AddKey("p2","k")`. -/
theorem merge_duplicate_AddKey_dropped_witness :
    (Example.afterOps [Op.addKey [112, 49] [107]]
        (NewSiblingSetMergeIterator Example.lengthMerger)).AddKey [112, 50] [107]
      = .ok (Example.afterOps [Op.addKey [112, 49] [107]]
        (NewSiblingSetMergeIterator Example.lengthMerger)) :=
  merge_duplicate_AddKey_dropped Example.lengthMerger [] [] [112, 49] [107] _ rfl [112, 50]

/-- The scenario of C6 evaluated: the prefix `"p2"`, offered only with the key `"k"` already
seen under `"p1"`, gets no group. -/
theorem merge_duplicate_AddKey_dropped_example :
    (Example.afterOps [Op.addKey [112, 49] [107], Op.addKey [112, 50] [107]]
      (NewSiblingSetMergeIterator Example.lengthMerger)).prefixes = [[112, 49]] ∧
    (Example.afterOps [Op.addKey [112, 49] [107], Op.addKey [112, 50] [107]]
      (NewSiblingSetMergeIterator Example.lengthMerger)).keys = [[[107]]] :=
  ⟨rfl, rfl⟩

/-- C10: `Error()` is nil in every state reached from a fresh iterator by `AddKey`,
`SortKeys`, `Next` and `Release` calls, in particular after `Next` has answered `false`. -/
theorem merge_Error_nil (rm : GoString → Option SiblingSet) (ops : List Op)
    (s : SiblingSetMergeIterator SiblingSet)
    (_h : run ops (NewSiblingSetMergeIterator rm) = .ok s) :
    s.Error = none ∧ ∀ s', s.Next = .ok (false, s') → s'.Error = none :=
  ⟨rfl, fun _ _ => rfl⟩

/-- Witness of C10: an iterator with one key, read to exhaustion. -/
theorem merge_Error_nil_witness :
    (Example.afterOps [Op.addKey [112] [107], Op.next, Op.next, Op.release]
        (NewSiblingSetMergeIterator Example.lengthMerger)).Error = none ∧
    ∀ s', (Example.afterOps [Op.addKey [112] [107], Op.next, Op.next, Op.release]
        (NewSiblingSetMergeIterator Example.lengthMerger)).Next = .ok (false, s') →
      s'.Error = none :=
  merge_Error_nil Example.lengthMerger [Op.addKey [112] [107], Op.next, Op.next, Op.release]
    _ rfl

/-! ## `Release`, `SortKeys` and the default bucket -/

theorem merge_run_release_filter (ops : List Op) : ∀ s : SiblingSetMergeIterator SiblingSet,
    run (ops.filter (fun o => decide (o ≠ Op.release))) s = run ops s := by
  induction ops with
  | nil => intro s; rfl
  | cons op ops ih =>
    intro s
    cases op with
    | release =>
      have : (Op.release :: ops).filter (fun o => decide (o ≠ Op.release))
          = ops.filter (fun o => decide (o ≠ Op.release)) := by simp
      rw [this, ih s]
      rfl
    | addKey p k =>
      have : (Op.addKey p k :: ops).filter (fun o => decide (o ≠ Op.release))
          = Op.addKey p k :: ops.filter (fun o => decide (o ≠ Op.release)) := by simp
      rw [this]
      simp only [run]
      cases step s (Op.addKey p k) with
      | error e => rfl
      | ok s1 => exact ih s1
    | sortKeys =>
      have : (Op.sortKeys :: ops).filter (fun o => decide (o ≠ Op.release))
          = Op.sortKeys :: ops.filter (fun o => decide (o ≠ Op.release)) := by simp
      rw [this]
      simp only [run]
      cases step s Op.sortKeys with
      | error e => rfl
      | ok s1 => exact ih s1
    | next =>
      have : (Op.next :: ops).filter (fun o => decide (o ≠ Op.release))
          = Op.next :: ops.filter (fun o => decide (o ≠ Op.release)) := by simp
      rw [this]
      simp only [run]
      cases step s Op.next with
      | error e => rfl
      | ok s1 => exact ih s1

theorem merge_Release_iterate (n : Nat) (s : SiblingSetMergeIterator SiblingSet) :
    Nat.iterate Release n s = s := by
  induction n with
  | zero => rfl
  | succ n ih => rw [Function.iterate_succ_apply]; exact ih

/-- C11: `Release()` called any number of times leaves every field of the iterator unchanged,
so `Next`, `Prefix`, `Key` and `Value` answer as before; and a sequence of calls ends in the
same state, or the same panic, when all its `Release` calls are left out. -/
theorem merge_Release_idempotent (s : SiblingSetMergeIterator SiblingSet) (n : Nat) :
    Nat.iterate Release n s = s ∧
    (Nat.iterate Release n s).Next = s.Next ∧
    (Nat.iterate Release n s).Prefix = s.Prefix ∧
    (Nat.iterate Release n s).Key = s.Key ∧
    (Nat.iterate Release n s).Value = s.Value ∧
    (∀ ops : List Op, run (ops.filter (fun o => decide (o ≠ Op.release))) s = run ops s) := by
  rw [merge_Release_iterate]
  exact ⟨rfl, rfl, rfl, rfl, rfl, fun ops => merge_run_release_filter ops s⟩

/-- C12: for every default bucket and every peer or client id the four policy predicates
answer `true`, and `Name()` is the string `"default"`. -/
theorem default_bucket_open {StoreT : Type} (defaultBucket : DefaultBucket StoreT)
    (id : GoString) :
    defaultBucket.ShouldReplicateOutgoing id = true ∧
    defaultBucket.ShouldReplicateIncoming id = true ∧
    defaultBucket.ShouldAcceptWrites id = true ∧
    defaultBucket.ShouldAcceptReads id = true ∧
    defaultBucket.Name = [100, 101, 102, 97, 117, 108, 116] :=
  ⟨rfl, rfl, rfl, rfl, rfl⟩

theorem sortStrings_idem (g : List GoString) : sortStrings (sortStrings g) = sortStrings g :=
  (sortStrings_sorted g).insertionSort_eq

/-- C15: `SortKeys()` leaves the prefixes, the key set, the prefix indexes, both cursor
indexes, the read merger and the number of groups unchanged, replaces each group by a
permutation of itself, and a second `SortKeys()` changes nothing. -/
theorem merge_SortKeys_reorders (s : SiblingSetMergeIterator SiblingSet) :
    s.SortKeys.prefixes = s.prefixes ∧ s.SortKeys.keySet = s.keySet ∧
    s.SortKeys.prefixIndexes = s.prefixIndexes ∧
    s.SortKeys.currentPrefixIndex = s.currentPrefixIndex ∧
    s.SortKeys.currentKeyIndex = s.currentKeyIndex ∧
    s.SortKeys.readMerger = s.readMerger ∧
    s.SortKeys.keys.length = s.keys.length ∧
    List.Forall₂ (fun g' g => g'.Perm g) s.SortKeys.keys s.keys ∧
    s.SortKeys.keys.Forall (fun g => g.Sorted (· ≤ ·)) ∧
    s.SortKeys.SortKeys = s.SortKeys := by
  refine ⟨rfl, rfl, rfl, rfl, rfl, rfl, by simp [SortKeys], ?_, ?_, ?_⟩
  · show List.Forall₂ _ (s.keys.map sortStrings) s.keys
    rw [List.forall₂_map_left_iff, List.forall₂_same]
    intro g _
    exact List.perm_insertionSort _ g
  · show (s.keys.map sortStrings).Forall _
    rw [List.forall_iff_forall_mem]
    intro g hg
    obtain ⟨g0, _, rfl⟩ := List.mem_map.1 hg
    exact sortStrings_sorted g0
  · show ({ s with keys := (s.keys.map sortStrings).map sortStrings } :
      SiblingSetMergeIterator SiblingSet) = { s with keys := s.keys.map sortStrings }
    have : (s.keys.map sortStrings).map sortStrings = s.keys.map sortStrings := by
      rw [List.map_map]
      apply List.map_congr_left
      intro g _
      exact sortStrings_idem g
    rw [this]

/-- The scenario of C15 evaluated: the two keys of one group change places, nothing else. -/
theorem merge_SortKeys_reorders_example :
    (Example.afterOps [Op.addKey [112] [107, 50], Op.addKey [112] [107, 49], Op.sortKeys]
      (NewSiblingSetMergeIterator Example.lengthMerger)).keys = [[[107, 49], [107, 50]]] ∧
    (Example.afterOps [Op.addKey [112] [107, 50], Op.addKey [112] [107, 49]]
      (NewSiblingSetMergeIterator Example.lengthMerger)).keys = [[[107, 50], [107, 49]]] :=
  ⟨rfl, rfl⟩

/-! ## The structural invariant -/

theorem indexes_snoc (m : GoMap Int) (l : List GoString) (p : GoString) (hp : p ∉ l)
    (h : ∀ q (i : Int), m.get? q = some i ↔ (0 ≤ i ∧ l[i.toNat]? = some q)) :
    ∀ q (i : Int), (m.set p (l.length : Int)).get? q = some i ↔
      (0 ≤ i ∧ (l ++ [p])[i.toNat]? = some q) := by
  intro q i
  by_cases hq : q = p
  · subst hq
    rw [GoMap.get?_set_self]
    constructor
    · intro hi
      have hi' : i = (l.length : Int) := (Option.some.inj hi).symm
      subst hi'
      simp
    · rintro ⟨h0, hi⟩
      have hlt : i.toNat < (l ++ [q]).length := by
        by_contra hcon
        rw [List.getElem?_eq_none (Nat.le_of_not_lt hcon)] at hi
        exact Option.noConfusion hi
      have hge : ¬ i.toNat < l.length := by
        intro hlt2
        rw [List.getElem?_append_left hlt2] at hi
        exact hp (List.getElem?_mem hi)
      simp only [List.length_append, List.length_singleton] at hlt
      congr 1
      omega
  · rw [GoMap.get?_set_ne _ _ _ _ hq, h q i]
    constructor
    · rintro ⟨h0, hi⟩
      have hlt : i.toNat < l.length := by
        by_contra hcon
        rw [List.getElem?_eq_none (Nat.le_of_not_lt hcon)] at hi
        exact Option.noConfusion hi
      exact ⟨h0, by rw [List.getElem?_append_left hlt]; exact hi⟩
    · rintro ⟨h0, hi⟩
      refine ⟨h0, ?_⟩
      by_cases hlt : i.toNat < l.length
      · rw [List.getElem?_append_left hlt] at hi; exact hi
      · exfalso
        rw [List.getElem?_append_right (Nat.le_of_not_lt hlt)] at hi
        have := List.getElem?_mem hi
        simp at this
        exact hq this

theorem flatten_set_append_perm (ks : List (List GoString)) (n : Nat) (k : GoString)
    (hn : n < ks.length) :
    (ks.set n (ks.getD n [] ++ [k])).flatten.Perm (k :: ks.flatten) := by
  induction ks generalizing n with
  | nil => exact absurd hn (Nat.not_lt_zero _)
  | cons g ks ih =>
    cases n with
    | zero =>
      show ((g ++ [k]) ++ ks.flatten).Perm (k :: (g ++ ks.flatten))
      rw [List.append_assoc]
      exact List.perm_middle
    | succ n =>
      have hn' : n < ks.length := Nat.lt_of_succ_lt_succ hn
      show (g ++ (ks.set n (ks.getD n [] ++ [k])).flatten).Perm (k :: (g ++ ks.flatten))
      exact ((ih n hn').append_left g).trans List.perm_middle

theorem flatten_map_sortStrings_perm (ks : List (List GoString)) :
    (ks.map sortStrings).flatten.Perm ks.flatten := by
  induction ks with
  | nil => exact List.Perm.refl _
  | cons g ks ih =>
    show (sortStrings g ++ (ks.map sortStrings).flatten).Perm (g ++ ks.flatten)
    exact (List.perm_insertionSort _ g).append ih

theorem Invariant_new (rm : GoString → Option SiblingSet) :
    Invariant (NewSiblingSetMergeIterator rm) where
  length_eq := rfl
  prefixes_nodup := List.nodup_nil
  prefixIndexes_iff := by intro p i; simp [NewSiblingSetMergeIterator, GoMap.get?]
  groups_ne_nil := by intro g hg; simp [NewSiblingSetMergeIterator] at hg
  keys_nodup := List.nodup_nil
  keySet_iff := by intro k; simp [NewSiblingSetMergeIterator, GoMap.get?]
  keyIndex_ge := Int.le_refl _

theorem keySet_set_iff (m : GoMap Bool) (l l' : List GoString) (k : GoString)
    (h : ∀ k', (m.get? k').isSome = true ↔ k' ∈ l) (hl : ∀ k', k' ∈ l' ↔ k' = k ∨ k' ∈ l)
    (k' : GoString) : ((m.set k true).get? k').isSome = true ↔ k' ∈ l' := by
  rw [hl]
  by_cases hk : k' = k
  · subst hk
    simp [GoMap.get?_set_self]
  · rw [GoMap.get?_set_ne _ _ _ _ hk, h k']
    simp [hk]

theorem Invariant_AddKey (s s' : SiblingSetMergeIterator SiblingSet) (p k : GoString)
    (hinv : Invariant s) (h : s.AddKey p k = .ok s') : Invariant s' := by
  rcases merge_AddKey_cases s s' p k h with ⟨_, rfl⟩ | ⟨hdup, n, hn, hget, rfl⟩ | ⟨hdup, hget, rfl⟩
  · exact hinv
  · have hk : k ∉ s.keys.flatten := by
      intro hmem
      have := (hinv.keySet_iff k).2 hmem
      rw [hdup] at this
      exact Bool.noConfusion this
    have hperm := flatten_set_append_perm s.keys n k hn
    refine ⟨?_, hinv.prefixes_nodup, hinv.prefixIndexes_iff, ?_, ?_, ?_, hinv.keyIndex_ge⟩
    · show s.prefixes.length = (s.keys.set n (s.keys.getD n [] ++ [k])).length
      rw [List.length_set]; exact hinv.length_eq
    · intro g hg
      rcases List.mem_or_eq_of_mem_set hg with h1 | h1
      · exact hinv.groups_ne_nil g h1
      · rw [h1]; simp
    · exact hperm.nodup_iff.2 (List.nodup_cons.2 ⟨hk, hinv.keys_nodup⟩)
    · exact keySet_set_iff s.keySet s.keys.flatten _ k hinv.keySet_iff
        (fun k' => by rw [hperm.mem_iff, List.mem_cons])
  · have hk : k ∉ s.keys.flatten := by
      intro hmem
      have := (hinv.keySet_iff k).2 hmem
      rw [hdup] at this
      exact Bool.noConfusion this
    have hp : p ∉ s.prefixes := by
      intro hmem
      obtain ⟨i, hi, hpi⟩ := List.getElem_of_mem hmem
      have hsome : s.prefixIndexes.get? p = some (i : Int) :=
        (hinv.prefixIndexes_iff p i).2
          ⟨by omega, by simp [List.getElem?_eq_getElem hi, hpi]⟩
      rw [hget] at hsome
      exact Option.noConfusion hsome
    have hfl : (s.keys ++ [[k]]).flatten = s.keys.flatten ++ [k] := List.flatten_concat _ _
    refine ⟨?_, ?_, ?_, ?_, ?_, ?_, hinv.keyIndex_ge⟩
    · show (s.prefixes ++ [p]).length = (s.keys ++ [[k]]).length
      simp [hinv.length_eq]
    · show (s.prefixes ++ [p]).Nodup
      exact List.Nodup.append hinv.prefixes_nodup (List.nodup_singleton p)
        (by intro q hq hq'; rw [List.mem_singleton] at hq'; exact hp (hq' ▸ hq))
    · show ∀ q (i : Int), (s.prefixIndexes.set p (s.keys.length : Int)).get? q = some i ↔
        (0 ≤ i ∧ (s.prefixes ++ [p])[i.toNat]? = some q)
      rw [← hinv.length_eq]
      exact indexes_snoc s.prefixIndexes s.prefixes p hp hinv.prefixIndexes_iff
    · intro g hg
      have hg' : g ∈ s.keys ++ [[k]] := hg
      rw [List.mem_append, List.mem_singleton] at hg'
      rcases hg' with h1 | h1
      · exact hinv.groups_ne_nil g h1
      · rw [h1]; simp
    · show (s.keys ++ [[k]]).flatten.Nodup
      rw [hfl]
      exact List.Nodup.append hinv.keys_nodup (List.nodup_singleton k)
        (by intro q hq hq'; rw [List.mem_singleton] at hq'; exact hk (hq' ▸ hq))
    · show ∀ k', ((s.keySet.set k true).get? k').isSome = true ↔ k' ∈ (s.keys ++ [[k]]).flatten
      rw [hfl]
      exact keySet_set_iff s.keySet s.keys.flatten _ k hinv.keySet_iff
        (fun k' => by rw [List.mem_append, List.mem_singleton, or_comm])

theorem Invariant_SortKeys (s : SiblingSetMergeIterator SiblingSet) (hinv : Invariant s) :
    Invariant s.SortKeys := by
  have hperm := flatten_map_sortStrings_perm s.keys
  refine ⟨?_, hinv.prefixes_nodup, hinv.prefixIndexes_iff, ?_, ?_, ?_, hinv.keyIndex_ge⟩
  · show s.prefixes.length = (s.keys.map sortStrings).length
    rw [List.length_map]; exact hinv.length_eq
  · intro g hg
    obtain ⟨g0, hg0, rfl⟩ := List.mem_map.1 hg
    intro hnil
    have hp := List.perm_insertionSort (· ≤ ·) g0
    have : sortStrings g0 = List.insertionSort (· ≤ ·) g0 := rfl
    rw [← this, hnil] at hp
    exact hinv.groups_ne_nil g0 hg0 hp.symm.eq_nil
  · exact hperm.nodup_iff.2 hinv.keys_nodup
  · intro k
    show (s.keySet.get? k).isSome = true ↔ k ∈ (s.keys.map sortStrings).flatten
    rw [hperm.mem_iff]
    exact hinv.keySet_iff k

/-! ## Reachable states: no panic of `AddKey` and `Next`, the invariant -/

/-- `Next` only moves the cursor. -/
theorem merge_Next_shape (s : SiblingSetMergeIterator SiblingSet) (hk : -1 ≤ s.currentKeyIndex) :
    ∃ (b : Bool) (i j : Int),
      s.Next = .ok (b, { s with currentPrefixIndex := i, currentKeyIndex := j }) ∧
      0 ≤ i ∧ -1 ≤ j ∧ (b = false → (s.keys.length : Int) ≤ i ∨ [] ∈ s.keys) := by
  have key : ∀ t : SiblingSetMergeIterator SiblingSet, 0 ≤ t.currentPrefixIndex →
      -1 ≤ t.currentKeyIndex →
      ∃ (b : Bool) (i j : Int),
        t.Next = .ok (b, { t with currentPrefixIndex := i, currentKeyIndex := j }) ∧
        0 ≤ i ∧ -1 ≤ j ∧ (b = false → (t.keys.length : Int) ≤ i ∨ [] ∈ t.keys) := by
    intro t hp hk
    by_cases hlen : (t.keys.length : Int) ≤ t.currentPrefixIndex
    · exact ⟨false, t.currentPrefixIndex, t.currentKeyIndex, merge_Next_done t hp hlen, hp, hk,
        fun _ => Or.inl hlen⟩
    · have hi : t.currentPrefixIndex.toNat < t.keys.length := by omega
      have hpc : t.currentPrefixIndex = ((t.currentPrefixIndex.toNat : Nat) : Int) :=
        (Int.toNat_of_nonneg hp).symm
      have hkc : t.currentKeyIndex + 1 = (((t.currentKeyIndex + 1).toNat : Nat) : Int) :=
        (Int.toNat_of_nonneg (by omega)).symm
      by_cases hm : (t.currentKeyIndex + 1).toNat < (t.keys.get ⟨_, hi⟩).length
      · refine ⟨true, t.currentPrefixIndex, (((t.currentKeyIndex + 1).toNat : Nat) : Int),
          merge_Next_stay t _ _ hi hpc hkc hm, hp, by omega, fun h => Bool.noConfusion h⟩
      · refine ⟨_, ((t.currentPrefixIndex.toNat : Nat) : Int) + 1, 0,
          merge_Next_move t _ _ hi hpc hkc (Nat.le_of_not_lt hm), by omega, by omega, ?_⟩
        intro hb
        have hz : (t.keys.getD (t.currentPrefixIndex.toNat + 1) []).length = 0 := by
          simpa using hb
        by_cases hi1 : t.currentPrefixIndex.toNat + 1 < t.keys.length
        · right
          have hd : t.keys.getD (t.currentPrefixIndex.toNat + 1) [] = t.keys.get ⟨_, hi1⟩ := by
            simp [List.getD_eq_getElem?_getD, List.getElem?_eq_getElem hi1]
          rw [hd] at hz
          have hnil : t.keys.get ⟨_, hi1⟩ = [] := List.length_eq_zero.1 hz
          rw [← hnil]
          exact List.get_mem _ _ _
        · left
          omega
  by_cases hneg : s.currentPrefixIndex < 0
  · rw [merge_Next_fresh s hneg]
    exact key ({ s with currentPrefixIndex := 0 } : SiblingSetMergeIterator SiblingSet)
      (Int.le_refl 0) hk
  · exact key s (by omega) hk

theorem Invariant_Next (s s' : SiblingSetMergeIterator SiblingSet) (b : Bool)
    (hinv : Invariant s) (h : s.Next = .ok (b, s')) : Invariant s' := by
  obtain ⟨b', i, j, hN, _, hj, _⟩ := merge_Next_shape s hinv.keyIndex_ge
  rw [hN] at h
  have := (Prod.mk.inj (Except.ok.inj h)).2
  subst this
  exact ⟨hinv.length_eq, hinv.prefixes_nodup, hinv.prefixIndexes_iff, hinv.groups_ne_nil,
    hinv.keys_nodup, hinv.keySet_iff, hj⟩

theorem merge_AddKey_total (s : SiblingSetMergeIterator SiblingSet) (p k : GoString)
    (hinv : Invariant s) : ∃ s', s.AddKey p k = .ok s' := by
  cases hdup : (s.keySet.get? k).isSome with
  | true => exact ⟨s, merge_AddKey_dup s p k hdup⟩
  | false =>
    cases hget : s.prefixIndexes.get? p with
    | none => exact ⟨_, merge_AddKey_new s p k hdup hget⟩
    | some i =>
      obtain ⟨h0, hi⟩ := (hinv.prefixIndexes_iff p i).1 hget
      have hlt : i.toNat < s.keys.length := by
        rw [← hinv.length_eq]
        by_contra hcon
        rw [List.getElem?_eq_none (Nat.le_of_not_lt hcon)] at hi
        exact Option.noConfusion hi
      have hget' : s.prefixIndexes.get? p = some ((i.toNat : Nat) : Int) := by
        rw [Int.toNat_of_nonneg h0, hget]
      exact ⟨_, merge_AddKey_old s p k i.toNat hdup hget' hlt⟩

theorem Invariant_step_total (s : SiblingSetMergeIterator SiblingSet) (op : Op)
    (hinv : Invariant s) : ∃ s', step s op = .ok s' ∧ Invariant s' := by
  cases op with
  | addKey p k =>
    obtain ⟨s', hs'⟩ := merge_AddKey_total s p k hinv
    exact ⟨s', hs', Invariant_AddKey s s' p k hinv hs'⟩
  | sortKeys => exact ⟨_, rfl, Invariant_SortKeys s hinv⟩
  | next =>
    obtain ⟨b, i, j, hN, _, _, _⟩ := merge_Next_shape s hinv.keyIndex_ge
    refine ⟨_, ?_, Invariant_Next s _ b hinv hN⟩
    simp only [step, hN]
  | release => exact ⟨s, rfl, hinv⟩

theorem Invariant_run_total (ops : List Op) : ∀ s : SiblingSetMergeIterator SiblingSet,
    Invariant s → ∃ s', run ops s = .ok s' ∧ Invariant s' := by
  induction ops with
  | nil => intro s hinv; exact ⟨s, rfl, hinv⟩
  | cons op ops ih =>
    intro s hinv
    obtain ⟨s1, h1, hinv1⟩ := Invariant_step_total s op hinv
    obtain ⟨s', h', hinv'⟩ := ih s1 hinv1
    refine ⟨s', ?_, hinv'⟩
    simp only [run, h1, h']

theorem Invariant_run (ops : List Op) (s s' : SiblingSetMergeIterator SiblingSet)
    (hinv : Invariant s) (h : run ops s = .ok s') : Invariant s' := by
  obtain ⟨s'', h'', hinv''⟩ := Invariant_run_total ops s hinv
  rw [h''] at h
  exact (Except.ok.inj h) ▸ hinv''

/-- C16: every sequence of `AddKey`, `SortKeys`, `Next` and `Release` calls on a fresh iterator
runs without a panic, and in the state it reaches there are as many prefixes as groups, the
prefixes are pairwise distinct and `prefixIndexes` maps the `i`-th prefix to `i`, every group
is non-empty, no key occurs twice across the groups, and `keySet` holds exactly the keys of
the groups. -/
theorem merge_structural_invariant (rm : GoString → Option SiblingSet) (ops : List Op) :
    ∃ s, run ops (NewSiblingSetMergeIterator rm) = .ok s ∧
      s.prefixes.length = s.keys.length ∧
      s.prefixes.Nodup ∧
      (∀ i (hi : i < s.prefixes.length),
        s.prefixIndexes.get? (s.prefixes.get ⟨i, hi⟩) = some (i : Int)) ∧
      (∀ g ∈ s.keys, g ≠ []) ∧
      s.keys.flatten.Nodup ∧
      (∀ k, (s.keySet.get? k).isSome = true ↔ k ∈ s.keys.flatten) := by
  obtain ⟨s, hs, hinv⟩ := Invariant_run_total ops _ (Invariant_new rm)
  refine ⟨s, hs, hinv.length_eq, hinv.prefixes_nodup, ?_, hinv.groups_ne_nil, hinv.keys_nodup,
    hinv.keySet_iff⟩
  intro i hi
  exact (hinv.prefixIndexes_iff _ i).2
    ⟨by omega, by simp [List.getElem?_eq_getElem hi]⟩

/-- The scenario of C16 evaluated: the fields after a mixed sequence of calls. -/
theorem merge_structural_invariant_example :
    (Example.afterOps [Op.addKey [98] [121], Op.next, Op.addKey [97] [120],
        Op.addKey [98] [120], Op.sortKeys, Op.addKey [98] [107], Op.release]
      (NewSiblingSetMergeIterator Example.lengthMerger)).prefixes = [[98], [97]] ∧
    (Example.afterOps [Op.addKey [98] [121], Op.next, Op.addKey [97] [120],
        Op.addKey [98] [120], Op.sortKeys, Op.addKey [98] [107], Op.release]
      (NewSiblingSetMergeIterator Example.lengthMerger)).keys = [[[121], [107]], [[120]]] ∧
    (Example.afterOps [Op.addKey [98] [121], Op.next, Op.addKey [97] [120],
        Op.addKey [98] [120], Op.sortKeys, Op.addKey [98] [107], Op.release]
      (NewSiblingSetMergeIterator Example.lengthMerger)).prefixIndexes = [([97], 1), ([98], 0)] ∧
    (Example.afterOps [Op.addKey [98] [121], Op.next, Op.addKey [97] [120],
        Op.addKey [98] [120], Op.sortKeys, Op.addKey [98] [107], Op.release]
      (NewSiblingSetMergeIterator Example.lengthMerger)).keySet
        = [([107], true), ([120], true), ([121], true)] :=
  ⟨rfl, rfl, rfl, rfl⟩

/-! ## The accessors outside the valid window -/

theorem merge_accessors_nil (s : SiblingSetMergeIterator SiblingSet) (h : s.noCurrentGroup) :
    s.Prefix = .ok none ∧ s.Key = .ok none ∧ s.Value = .ok none := by
  simp [Prefix, Key, Value, h]

theorem merge_run_cursor (ops : List Op) : ∀ (s s' : SiblingSetMergeIterator SiblingSet),
    (∀ op ∈ ops, op ≠ Op.next) → run ops s = .ok s' →
    s'.currentPrefixIndex = s.currentPrefixIndex ∧ s'.currentKeyIndex = s.currentKeyIndex := by
  induction ops with
  | nil =>
    intro s s' _ h
    have := Except.ok.inj h
    subst this
    exact ⟨rfl, rfl⟩
  | cons op ops ih =>
    intro s s' hno h
    simp only [run] at h
    cases hs : step s op with
    | error e => rw [hs] at h; exact Except.noConfusion h
    | ok s1 =>
      rw [hs] at h
      obtain ⟨a1, a2⟩ := ih s1 s' (fun o ho => hno o (List.mem_cons_of_mem _ ho)) h
      have hstep : s1.currentPrefixIndex = s.currentPrefixIndex ∧
          s1.currentKeyIndex = s.currentKeyIndex := by
        cases op with
        | addKey p k =>
          obtain ⟨_, b2, b3, _⟩ := merge_AddKey_effect s s1 p k hs
          exact ⟨b2, b3⟩
        | sortKeys => have := Except.ok.inj hs; subst this; exact ⟨rfl, rfl⟩
        | next => exact absurd rfl (hno Op.next (List.mem_cons_self _ _))
        | release => have := Except.ok.inj hs; subst this; exact ⟨rfl, rfl⟩
      exact ⟨a1.trans hstep.1, a2.trans hstep.2⟩

theorem Exhausted_step (s s' : SiblingSetMergeIterator SiblingSet) (op : Op)
    (hop : op.isAddKey = false) (hex : Exhausted s) (h : step s op = .ok s') : Exhausted s' := by
  cases op with
  | addKey p k => exact Bool.noConfusion hop
  | sortKeys =>
    have := Except.ok.inj h
    subst this
    refine ⟨hex.1, ?_⟩
    show (((s.keys.map sortStrings).length : Nat) : Int) ≤ s.currentPrefixIndex
    rw [List.length_map]
    exact hex.2
  | next =>
    simp only [step, merge_Next_done s hex.1 hex.2] at h
    have := Except.ok.inj h
    subst this
    exact hex
  | release =>
    have := Except.ok.inj h
    subst this
    exact hex

theorem Exhausted_run (ops : List Op) : ∀ (s s' : SiblingSetMergeIterator SiblingSet),
    (∀ op ∈ ops, op.isAddKey = false) → Exhausted s → run ops s = .ok s' → Exhausted s' := by
  induction ops with
  | nil =>
    intro s s' _ hex h
    exact (Except.ok.inj h) ▸ hex
  | cons op ops ih =>
    intro s s' hno hex h
    simp only [run] at h
    cases hs : step s op with
    | error e => rw [hs] at h; exact Except.noConfusion h
    | ok s1 =>
      rw [hs] at h
      exact ih s1 s' (fun o ho => hno o (List.mem_cons_of_mem _ ho))
        (Exhausted_step s s1 op (hno op (List.mem_cons_self _ _)) hex hs) h

theorem Exhausted_of_Next_false (t t' : SiblingSetMergeIterator SiblingSet)
    (hinv : Invariant t) (hN : t.Next = .ok (false, t')) : Exhausted t' := by
  obtain ⟨b, i, j, hN', hi, _, hb⟩ := merge_Next_shape t hinv.keyIndex_ge
  rw [hN'] at hN
  obtain ⟨hbf, ht⟩ := Prod.mk.inj (Except.ok.inj hN)
  subst ht
  rcases hb hbf with h1 | h1
  · exact ⟨hi, h1⟩
  · exact absurd rfl (hinv.groups_ne_nil [] h1)

/-- C13: the accessors `Prefix()`, `Key()` and `Value()` return nil before the first call of
`Next`, and in every state after a call of `Next` that answered `false` as long as no `AddKey`
follows that call, hence always when every `AddKey` call precedes the first `Next` (an iterator
without keys included); `Value()` does so whatever the read merger is. -/
theorem merge_accessors_nil_outside_window (rm : GoString → Option SiblingSet)
    (ops0 ops1 ops2 : List Op) (s t t' t'' : SiblingSetMergeIterator SiblingSet)
    (h0 : ∀ op ∈ ops0, op ≠ Op.next) (hs : run ops0 (NewSiblingSetMergeIterator rm) = .ok s)
    (ht : run ops1 s = .ok t)
    (hN : t.Next = .ok (false, t'))
    (h2 : ∀ op ∈ ops2, op.isAddKey = false) (ht2 : run ops2 t' = .ok t'') :
    (s.Prefix = .ok none ∧ s.Key = .ok none ∧ s.Value = .ok none) ∧
    (t''.Prefix = .ok none ∧ t''.Key = .ok none ∧ t''.Value = .ok none) ∧
    (∀ rm' : GoString → Option SiblingSet,
      ({ s with readMerger := rm' } : SiblingSetMergeIterator SiblingSet).Value = .ok none ∧
      ({ t'' with readMerger := rm' } : SiblingSetMergeIterator SiblingSet).Value = .ok none) := by
  have hcur := (merge_run_cursor ops0 _ s h0 hs).1
  have hsneg : s.noCurrentGroup := Or.inl (by rw [hcur]; show (-1 : Int) < 0; omega)
  have hinvs := Invariant_run ops0 _ s (Invariant_new rm) hs
  have hinvt := Invariant_run ops1 s t hinvs ht
  have hex := Exhausted_run ops2 t' t'' h2 (Exhausted_of_Next_false t t' hinvt hN) ht2
  have htn : t''.noCurrentGroup := Or.inr (Or.inl hex.2)
  refine ⟨merge_accessors_nil s hsneg, merge_accessors_nil t'' htn, ?_⟩
  intro rm'
  exact ⟨(merge_accessors_nil _ (show
      ({ s with readMerger := rm' } : SiblingSetMergeIterator SiblingSet).noCurrentGroup
      from hsneg)).2.2,
    (merge_accessors_nil _ (show
      ({ t'' with readMerger := rm' } : SiblingSetMergeIterator SiblingSet).noCurrentGroup
      from htn)).2.2⟩

/-- Witness of C13: one key, read to exhaustion, then `SortKeys` and one more `Next`. -/
theorem merge_accessors_nil_outside_window_witness :
    ((Example.afterOps [Op.addKey [112] [107]]
        (NewSiblingSetMergeIterator Example.lengthMerger)).Prefix = .ok none ∧
      (Example.afterOps [Op.addKey [112] [107]]
        (NewSiblingSetMergeIterator Example.lengthMerger)).Key = .ok none ∧
      (Example.afterOps [Op.addKey [112] [107]]
        (NewSiblingSetMergeIterator Example.lengthMerger)).Value = .ok none) ∧
    ((Example.afterOps [Op.sortKeys, Op.next] (Example.afterNext (Example.afterOps [Op.next]
        (Example.afterOps [Op.addKey [112] [107]]
          (NewSiblingSetMergeIterator Example.lengthMerger))))).Prefix = .ok none ∧
      (Example.afterOps [Op.sortKeys, Op.next] (Example.afterNext (Example.afterOps [Op.next]
        (Example.afterOps [Op.addKey [112] [107]]
          (NewSiblingSetMergeIterator Example.lengthMerger))))).Key = .ok none ∧
      (Example.afterOps [Op.sortKeys, Op.next] (Example.afterNext (Example.afterOps [Op.next]
        (Example.afterOps [Op.addKey [112] [107]]
          (NewSiblingSetMergeIterator Example.lengthMerger))))).Value = .ok none) :=
  have h := merge_accessors_nil_outside_window Example.lengthMerger
    [Op.addKey [112] [107]] [Op.next] [Op.sortKeys, Op.next]
    (Example.afterOps [Op.addKey [112] [107]] (NewSiblingSetMergeIterator Example.lengthMerger))
    (Example.afterOps [Op.next] (Example.afterOps [Op.addKey [112] [107]]
      (NewSiblingSetMergeIterator Example.lengthMerger)))
    (Example.afterNext (Example.afterOps [Op.next] (Example.afterOps [Op.addKey [112] [107]]
      (NewSiblingSetMergeIterator Example.lengthMerger))))
    (Example.afterOps [Op.sortKeys, Op.next] (Example.afterNext (Example.afterOps [Op.next]
      (Example.afterOps [Op.addKey [112] [107]]
        (NewSiblingSetMergeIterator Example.lengthMerger)))))
    (by decide) rfl rfl rfl (by decide) rfl
  ⟨h.1, h.2.1⟩

/-- The scenario of C13 for an iterator without keys: `Next` answers `false` and leaves the
cursor at group `0`, key `-1`; the accessors return nil. -/
theorem merge_accessors_nil_outside_window_example :
    (NewSiblingSetMergeIterator Example.lengthMerger).Next.map Prod.fst = .ok false ∧
    (Example.afterNext (NewSiblingSetMergeIterator Example.lengthMerger)).currentPrefixIndex = 0 ∧
    (Example.afterNext (NewSiblingSetMergeIterator Example.lengthMerger)).currentKeyIndex = -1 ∧
    (Example.afterNext (NewSiblingSetMergeIterator Example.lengthMerger)).Prefix = .ok none ∧
    (Example.afterNext (NewSiblingSetMergeIterator Example.lengthMerger)).Key = .ok none ∧
    (Example.afterNext (NewSiblingSetMergeIterator Example.lengthMerger)).Value = .ok none :=
  ⟨rfl, rfl, rfl, rfl, rfl, rfl⟩

theorem merge_Prefix_total (s : SiblingSetMergeIterator SiblingSet) (hinv : Invariant s) :
    ∃ r, s.Prefix = .ok r := by
  by_cases hg : s.noCurrentGroup
  · exact ⟨none, (merge_accessors_nil s hg).1⟩
  · have h0 : 0 ≤ s.currentPrefixIndex := by
      unfold noCurrentGroup at hg
      omega
    have hlt : s.currentPrefixIndex.toNat < s.prefixes.length := by
      rw [hinv.length_eq]
      unfold noCurrentGroup at hg
      omega
    refine ⟨some (s.prefixes.get ⟨_, hlt⟩), ?_⟩
    simp only [Prefix, hg, if_false, index_of_nonneg s.prefixes _ h0 hlt]

/-- C17, the failing input: `Next` on a fresh iterator answers `false` and leaves the cursor at
group `0`, key `-1`; after `AddKey("p","k")` the group `0` exists, and `Key()` and `Value()`
index it at `-1`, which panics, while `Prefix()` returns `"p"`. -/
theorem merge_accessors_fault_after_late_AddKey :
    run [Op.next, Op.addKey [112] [107]] (NewSiblingSetMergeIterator Example.lengthMerger)
      = .ok (Example.afterOps [Op.next, Op.addKey [112] [107]]
        (NewSiblingSetMergeIterator Example.lengthMerger)) ∧
    (Example.afterOps [Op.next, Op.addKey [112] [107]]
      (NewSiblingSetMergeIterator Example.lengthMerger)).currentPrefixIndex = 0 ∧
    (Example.afterOps [Op.next, Op.addKey [112] [107]]
      (NewSiblingSetMergeIterator Example.lengthMerger)).currentKeyIndex = -1 ∧
    (Example.afterOps [Op.next, Op.addKey [112] [107]]
      (NewSiblingSetMergeIterator Example.lengthMerger)).keys = [[[107]]] ∧
    (Example.afterOps [Op.next, Op.addKey [112] [107]]
      (NewSiblingSetMergeIterator Example.lengthMerger)).Key = .error Panic.indexOutOfRange ∧
    (Example.afterOps [Op.next, Op.addKey [112] [107]]
      (NewSiblingSetMergeIterator Example.lengthMerger)).Value = .error Panic.indexOutOfRange ∧
    (Example.afterOps [Op.next, Op.addKey [112] [107]]
      (NewSiblingSetMergeIterator Example.lengthMerger)).Prefix = .ok (some [112]) :=
  ⟨rfl, rfl, rfl, rfl, rfl, rfl, rfl⟩

/-! ## Insertion order and independence of the order of the calls -/

theorem filter_pairs_eq (p : GoString) (g : List GoString) :
    (g.map (fun k => (p, k))).filter (fun e => e.1 = p) = g.map (fun k => (p, k)) := by
  rw [List.filter_eq_self]
  intro e he
  obtain ⟨k, _, rfl⟩ := List.mem_map.1 he
  simp

theorem filter_pairs_ne (p q : GoString) (g : List GoString) (h : q ≠ p) :
    (g.map (fun k => (q, k))).filter (fun e => e.1 = p) = [] := by
  rw [List.filter_eq_nil_iff]
  intro e he
  obtain ⟨k, _, rfl⟩ := List.mem_map.1 he
  simpa using h

theorem filter_groups_of_not_mem (l : List GoString) (g : GoString → List GoString)
    (p : GoString) (hp : p ∉ l) :
    (l.flatMap fun q => (g q).map fun k => (q, k)).filter (fun e => e.1 = p) = [] := by
  induction l with
  | nil => rfl
  | cons q l ih =>
    rw [List.flatMap_cons, List.filter_append,
      filter_pairs_ne p q (g q) (fun h => hp (h ▸ List.mem_cons_self _ _)),
      ih (fun h => hp (List.mem_cons_of_mem _ h))]
    rfl

theorem filter_groups_of_mem (l : List GoString) (hl : l.Nodup) (g : GoString → List GoString)
    (p : GoString) (hp : p ∈ l) :
    (l.flatMap fun q => (g q).map fun k => (q, k)).filter (fun e => e.1 = p)
      = (g p).map fun k => (p, k) := by
  induction l with
  | nil => simp at hp
  | cons q l ih =>
    rw [List.flatMap_cons, List.filter_append]
    obtain ⟨hq, hl'⟩ := List.nodup_cons.1 hl
    by_cases hqp : q = p
    · subst hqp
      rw [filter_pairs_eq, filter_groups_of_not_mem l g q hq, List.append_nil]
    · have hp' : p ∈ l := by
        rcases List.mem_cons.1 hp with h | h
        · exact absurd h.symm hqp
        · exact h
      rw [filter_pairs_ne p q (g q) hqp, ih hl' hp', List.nil_append]

theorem groupOf_pairs (calls : List (GoString × GoString)) (p : GoString) :
    (groupOf calls p).map (fun k => (p, k)) = (accepted calls).filter (fun c => c.1 = p) := by
  unfold groupOf
  rw [List.map_map]
  have : ∀ l : List (GoString × GoString),
      (l.filter (fun c => c.1 = p)).map ((fun k => (p, k)) ∘ Prod.snd)
        = l.filter (fun c => c.1 = p) := by
    intro l
    induction l with
    | nil => rfl
    | cons c l ih =>
      by_cases hc : c.1 = p
      · rw [List.filter_cons_of_pos (by simpa using hc), List.map_cons, ih]
        congr 1
        exact Prod.ext hc.symm rfl
      · rw [List.filter_cons_of_neg (by simpa using hc), ih]
  exact this _

theorem traversal_filter (calls : List (GoString × GoString)) (p : GoString) :
    (traversal false calls).filter (fun e => e.1 = p)
      = (accepted calls).filter (fun c => c.1 = p) := by
  have harr : ∀ q, arrange false (groupOf calls q) = groupOf calls q := fun _ => rfl
  unfold traversal
  simp only [harr]
  by_cases hp : p ∈ prefixOrder calls
  · rw [filter_groups_of_mem _ (nodup_prefixOrder calls) _ p hp, groupOf_pairs]
  · rw [filter_groups_of_not_mem _ _ p hp, ← groupOf_pairs, groupOf_eq_nil calls p hp]
    rfl

/-- C18: without `SortKeys`, the pairs read under each prefix are the `AddKey` calls made with
that prefix that were the first call of their key, in the order of the calls; the iterator
does not sort on its own. -/
theorem merge_insertion_order (rm : GoString → Option SiblingSet)
    (calls : List (GoString × GoString)) :
    ∃ s, addKeys calls (NewSiblingSetMergeIterator rm) = .ok s ∧
      (∀ extra, drain ((traversal false calls).length + 1 + extra) s
        = .ok (some ((traversal false calls).map yielded))) ∧
      (∀ p, (traversal false calls).filter (fun e => e.1 = p)
        = (firstBy Prod.snd calls).filter (fun c => c.1 = p)) := by
  obtain ⟨s, hs, hb⟩ := addKeys_built rm calls
  exact ⟨s, hs, Built_drain rm calls s hb false, traversal_filter calls⟩

/-- The scenario of C18 evaluated: `AddKey("site1","k2")`, `AddKey("site1","k1")` without
`SortKeys` yields `k2` before `k1`. -/
theorem merge_insertion_order_example :
    Example.observe false Example.siteCalls 3
      = .ok (some [(some [115, 105, 116, 101, 49], some [107, 50]),
                   (some [115, 105, 116, 101, 49], some [107, 49])]) :=
  rfl

theorem prefixOrder_of_functional (calls : List (GoString × GoString))
    (h : ∀ c ∈ calls, ∀ d ∈ calls, c.2 = d.2 → c.1 = d.1) :
    prefixOrder calls = firstBy id (calls.map Prod.fst) := by
  induction calls using List.reverseRecOn with
  | nil => rfl
  | append_singleton calls c ih =>
    have h' : ∀ a ∈ calls, ∀ d ∈ calls, a.2 = d.2 → a.1 = d.1 := fun a ha d hd =>
      h a (List.mem_append_left _ ha) d (List.mem_append_left _ hd)
    have ih' := ih h'
    have hmemPO : ∀ p, p ∈ prefixOrder calls ↔ id p ∈ (calls.map Prod.fst).map id := by
      intro p
      rw [ih', mem_firstBy_id]
      simp
    rw [List.map_append, List.map_singleton]
    by_cases hk : c.2 ∈ calls.map Prod.snd
    · obtain ⟨d, hd, hdk⟩ := List.mem_map.1 hk
      have hpd : d.1 = c.1 :=
        h d (List.mem_append_left _ hd) c (List.mem_append_right _ (List.mem_singleton_self c)) hdk
      have hc1 : id c.1 ∈ (calls.map Prod.fst).map id := by
        rw [List.map_id]
        exact List.mem_map.2 ⟨d, hd, hpd⟩
      rw [prefixOrder_snoc_dup calls c hk, firstBy_snoc_of_mem id _ _ hc1, ih']
    · by_cases hp : c.1 ∈ prefixOrder calls
      · rw [prefixOrder_snoc_old calls c hk hp,
          firstBy_snoc_of_mem id _ _ ((hmemPO c.1).1 hp), ih']
      · rw [prefixOrder_snoc_new calls c hk hp,
          firstBy_snoc_of_not_mem id _ _ (fun hh => hp ((hmemPO c.1).2 hh)), ih']

theorem mem_accepted_of_functional (calls : List (GoString × GoString))
    (h : ∀ c ∈ calls, ∀ d ∈ calls, c.2 = d.2 → c.1 = d.1) (c : GoString × GoString) :
    c ∈ accepted calls ↔ c ∈ calls := by
  constructor
  · exact mem_firstBy Prod.snd calls c
  · intro hc
    have hk : c.2 ∈ (accepted calls).map Prod.snd :=
      (mem_map_firstBy Prod.snd calls c.2).2 (List.mem_map.2 ⟨c, hc, rfl⟩)
    obtain ⟨d, hd, hdk⟩ := List.mem_map.1 hk
    have hd' : d ∈ calls := mem_firstBy Prod.snd calls d hd
    have : d = c := Prod.ext (h d hd' c hc hdk) hdk
    exact this ▸ hd

theorem sortStrings_eq_of_perm (g g' : List GoString) (h : g.Perm g') :
    sortStrings g = sortStrings g' :=
  List.eq_of_perm_of_sorted
    (((List.perm_insertionSort _ g).trans h).trans (List.perm_insertionSort _ g').symm)
    (sortStrings_sorted g) (sortStrings_sorted g')

/-- C14: two `AddKey` sequences that are permutations of each other, in which a key always
comes with the same prefix and in which the prefixes make their first appearance in the same
order, give, after `SortKeys()`, the same sequence of pairs `(Prefix(), Key())`. -/
theorem merge_traversal_deterministic (rm : GoString → Option SiblingSet)
    (s1 s2 : List (GoString × GoString)) (hperm : s1.Perm s2)
    (hfun : ∀ c ∈ s1, ∀ d ∈ s1, c.2 = d.2 → c.1 = d.1)
    (horder : firstBy id (s1.map Prod.fst) = firstBy id (s2.map Prod.fst)) :
    traversal true s1 = traversal true s2 ∧
    ∃ t1 t2, addKeys s1 (NewSiblingSetMergeIterator rm) = .ok t1 ∧
      addKeys s2 (NewSiblingSetMergeIterator rm) = .ok t2 ∧
      ∀ extra,
        drain ((traversal true s1).length + 1 + extra) t1.SortKeys
          = .ok (some ((traversal true s1).map yielded)) ∧
        drain ((traversal true s1).length + 1 + extra) t2.SortKeys
          = .ok (some ((traversal true s1).map yielded)) := by
  have hfun2 : ∀ c ∈ s2, ∀ d ∈ s2, c.2 = d.2 → c.1 = d.1 := fun c hc d hd =>
    hfun c (hperm.mem_iff.2 hc) d (hperm.mem_iff.2 hd)
  have hPO : prefixOrder s1 = prefixOrder s2 := by
    rw [prefixOrder_of_functional s1 hfun, prefixOrder_of_functional s2 hfun2, horder]
  have hG : ∀ p, sortStrings (groupOf s1 p) = sortStrings (groupOf s2 p) := by
    intro p
    apply sortStrings_eq_of_perm
    rw [List.perm_ext_iff_of_nodup (nodup_groupOf s1 p) (nodup_groupOf s2 p)]
    intro k
    rw [mem_groupOf, mem_groupOf, mem_accepted_of_functional s1 hfun,
      mem_accepted_of_functional s2 hfun2]
    exact hperm.mem_iff
  have htr : traversal true s1 = traversal true s2 := by
    unfold traversal
    rw [hPO]
    congr 1
    funext p
    show (sortStrings (groupOf s1 p)).map _ = (sortStrings (groupOf s2 p)).map _
    rw [hG p]
  refine ⟨htr, ?_⟩
  obtain ⟨t1, ht1, hb1⟩ := addKeys_built rm s1
  obtain ⟨t2, ht2, hb2⟩ := addKeys_built rm s2
  refine ⟨t1, t2, ht1, ht2, fun extra => ⟨Built_drain rm s1 t1 hb1 true extra, ?_⟩⟩
  have := Built_drain rm s2 t2 hb2 true extra
  rw [← htr] at this
  exact this

/-- Witness of C14: the calls of `abCalls` and a permutation of them. -/
theorem merge_traversal_deterministic_witness :
    traversal true Example.abCalls = traversal true Example.abCallsPermuted ∧
    ∃ t1 t2, addKeys Example.abCalls (NewSiblingSetMergeIterator Example.lengthMerger) = .ok t1 ∧
      addKeys Example.abCallsPermuted (NewSiblingSetMergeIterator Example.lengthMerger)
        = .ok t2 ∧
      ∀ extra,
        drain ((traversal true Example.abCalls).length + 1 + extra) t1.SortKeys
          = .ok (some ((traversal true Example.abCalls).map yielded)) ∧
        drain ((traversal true Example.abCalls).length + 1 + extra) t2.SortKeys
          = .ok (some ((traversal true Example.abCalls).map yielded)) :=
  merge_traversal_deterministic Example.lengthMerger Example.abCalls Example.abCallsPermuted
    (by decide) (by decide) (by decide)

/-- The scenario of C14 evaluated: both orders of the calls are read as `(a,x) (a,z) (b,y)`. -/
theorem merge_traversal_deterministic_example :
    Example.observe true Example.abCalls 4
      = .ok (some [(some [97], some [120]), (some [97], some [122]), (some [98], some [121])]) ∧
    Example.observe true Example.abCallsPermuted 4
      = .ok (some [(some [97], some [120]), (some [97], some [122]), (some [98], some [121])]) :=
  ⟨rfl, rfl⟩

theorem merge_Key_Value_total (s : SiblingSetMergeIterator SiblingSet)
    (hk : 0 ≤ s.currentKeyIndex) : (∃ r, s.Key = .ok r) ∧ (∃ v, s.Value = .ok v) := by
  by_cases hg : s.noCurrentGroup
  · exact ⟨⟨none, (merge_accessors_nil s hg).2.1⟩, ⟨none, (merge_accessors_nil s hg).2.2⟩⟩
  · have h0 : 0 ≤ s.currentPrefixIndex := by
      unfold noCurrentGroup at hg
      omega
    have hlt : s.currentPrefixIndex.toNat < s.keys.length := by
      unfold noCurrentGroup at hg
      omega
    have hidx := index_of_nonneg s.keys _ h0 hlt
    by_cases hge : s.currentKeyIndex ≥ ((s.keys.get ⟨_, hlt⟩).length : Int)
    · constructor
      · exact ⟨none, by simp only [Key, hg, if_false, hidx, hge, if_true]⟩
      · exact ⟨none, by simp only [Value, hg, if_false, hidx, hge, if_true]⟩
    · have hj : s.currentKeyIndex.toNat < (s.keys.get ⟨_, hlt⟩).length := by omega
      have hidx2 := index_of_nonneg (s.keys.get ⟨_, hlt⟩) _ hk hj
      constructor
      · exact ⟨some ((s.keys.get ⟨_, hlt⟩).get ⟨_, hj⟩),
          by simp only [Key, hg, if_false, hidx, hge, hidx2]⟩
      · exact ⟨s.readMerger ((s.keys.get ⟨_, hlt⟩).get ⟨_, hj⟩),
          by simp only [Value, hg, if_false, hidx, hge, hidx2]⟩

end Devicedb
